import Mathlib

/-
  Verification development for the hyperstack client SDK.
  Shallow embedding of hyperstack/store.py, hyperstack/types.py and
  hyperstack/websocket.py (plus the resubscription hook in client.py).
  JSON values are modelled by an inductive type; Python dicts are
  association lists with unique keys; numbers are modelled as integers.
-/

namespace HyperStack

/- A numeric value as delivered by json.loads: an integral number, or one
   of the special floats the parser admits (Infinity, -Infinity, NaN).
   Structural equality on this type matches the equality the source
   observes during tuple comparisons: the json C parser hands out one
   cached NaN object, and CPython's element comparison short-circuits on
   object identity, so that NaN compares equal to itself there while both
   strict comparisons between NaN and any other number are False.
   Non-integral finite floats are ordered like integers and add nothing
   the claims observe, so they are not separately represented. -/
inductive PyNum where
  | int : Int → PyNum
  | inf : PyNum
  | ninf : PyNum
  | nan : PyNum
deriving DecidableEq, Repr

instance (n : Nat) : OfNat PyNum n := ⟨PyNum.int (Int.ofNat n)⟩

/- Python < on these numbers: every comparison against NaN is False. -/
def pyNumLt : PyNum → PyNum → Bool
  | PyNum.nan, _ => false
  | _, PyNum.nan => false
  | PyNum.int i, PyNum.int j => decide (i < j)
  | PyNum.int _, PyNum.inf => true
  | PyNum.int _, PyNum.ninf => false
  | PyNum.inf, _ => false
  | PyNum.ninf, PyNum.ninf => false
  | PyNum.ninf, _ => true

/- Python unary minus; negating NaN yields NaN again (the source only
   compares the result, and every comparison against any NaN is False
   either way, which the NaN-excluding theorems below never touch). -/
def pyNumNeg : PyNum → PyNum
  | PyNum.int i => PyNum.int (-i)
  | PyNum.inf => PyNum.ninf
  | PyNum.ninf => PyNum.inf
  | PyNum.nan => PyNum.nan

instance : Neg PyNum := ⟨pyNumNeg⟩

/- Python str() of such a number. -/
def pyNumToString : PyNum → String
  | PyNum.int i => toString i
  | PyNum.inf => "inf"
  | PyNum.ninf => "-inf"
  | PyNum.nan => "nan"

/- JSON values as delivered by json.loads.  A Python None stored in a dict
   is represented as Json.null. -/
inductive Json where
  | null : Json
  | bool : Bool → Json
  | num : PyNum → Json
  | str : String → Json
  | arr : List Json → Json
  | obj : List (String × Json) → Json
deriving Repr

mutual

def jsonBeq : Json → Json → Bool
  | Json.null, Json.null => true
  | Json.bool a, Json.bool b => a == b
  | Json.num a, Json.num b => a == b
  | Json.str a, Json.str b => a == b
  | Json.arr a, Json.arr b => jsonListBeq a b
  | Json.obj a, Json.obj b => jsonObjBeq a b
  | _, _ => false

def jsonListBeq : List Json → List Json → Bool
  | [], [] => true
  | x :: xs, y :: ys => jsonBeq x y && jsonListBeq xs ys
  | _, _ => false

def jsonObjBeq : List (String × Json) → List (String × Json) → Bool
  | [], [] => true
  | (k1, v1) :: xs, (k2, v2) :: ys => k1 == k2 && jsonBeq v1 v2 && jsonObjBeq xs ys
  | _, _ => false

end

theorem jsonListBeq_iff (xs ys : List Json)
    (ih : ∀ x ∈ xs, ∀ b, jsonBeq x b = true ↔ x = b) :
    jsonListBeq xs ys = true ↔ xs = ys := by
  induction xs generalizing ys with
  | nil => cases ys <;> simp [jsonListBeq]
  | cons x xs tail_ih =>
    cases ys with
    | nil => simp [jsonListBeq]
    | cons y ys =>
      simp only [jsonListBeq, Bool.and_eq_true, List.cons.injEq]
      have hih := tail_ih ys (fun z hz b => ih z (List.mem_cons_of_mem _ hz) b)
      constructor
      · rintro ⟨h1, h2⟩
        exact ⟨(ih x (List.mem_cons_self _ _) y).mp h1, hih.mp h2⟩
      · rintro ⟨h1, h2⟩
        exact ⟨(ih x (List.mem_cons_self _ _) y).mpr h1, hih.mpr h2⟩

theorem jsonObjBeq_iff (xs ys : List (String × Json))
    (ih : ∀ p ∈ xs, ∀ b, jsonBeq p.2 b = true ↔ p.2 = b) :
    jsonObjBeq xs ys = true ↔ xs = ys := by
  induction xs generalizing ys with
  | nil => cases ys <;> simp [jsonObjBeq]
  | cons x xs tail_ih =>
    cases ys with
    | nil => simp [jsonObjBeq]
    | cons y ys =>
      obtain ⟨k1, v1⟩ := x
      obtain ⟨k2, v2⟩ := y
      simp only [jsonObjBeq, Bool.and_eq_true, List.cons.injEq, Prod.mk.injEq,
        beq_iff_eq]
      have hih := tail_ih ys (fun z hz b => ih z (List.mem_cons_of_mem _ hz) b)
      constructor
      · rintro ⟨⟨h0, h1⟩, h2⟩
        exact ⟨⟨h0, (ih (k1, v1) (List.mem_cons_self _ _) v2).mp h1⟩, hih.mp h2⟩
      · rintro ⟨⟨h0, h1⟩, h2⟩
        exact ⟨⟨h0, (ih (k1, v1) (List.mem_cons_self _ _) v2).mpr h1⟩, hih.mpr h2⟩

theorem jsonBeq_iff : ∀ a b : Json, jsonBeq a b = true ↔ a = b := by
  suffices h : ∀ n a, sizeOf a ≤ n → ∀ b : Json, jsonBeq a b = true ↔ a = b by
    intro a b
    exact h (sizeOf a) a le_rfl b
  intro n
  induction n with
  | zero =>
    intro a ha
    cases a <;> simp at ha
  | succ n ihn =>
    intro a ha b
    cases a with
    | null => cases b <;> simp [jsonBeq]
    | bool x => cases b <;> simp [jsonBeq]
    | num x => cases b <;> simp [jsonBeq]
    | str x => cases b <;> simp [jsonBeq]
    | arr xs =>
      have hsz : sizeOf (Json.arr xs) = 1 + sizeOf xs := by simp
      have hel : ∀ x ∈ xs, ∀ b : Json, jsonBeq x b = true ↔ x = b := by
        intro x hx b
        have h1 : sizeOf x < sizeOf xs := List.sizeOf_lt_of_mem hx
        exact ihn x (by omega) b
      cases b with
      | arr ys => simpa only [jsonBeq, Json.arr.injEq] using jsonListBeq_iff xs ys hel
      | null => simp [jsonBeq]
      | bool y => simp [jsonBeq]
      | num y => simp [jsonBeq]
      | str y => simp [jsonBeq]
      | obj y => simp [jsonBeq]
    | obj xs =>
      have hsz : sizeOf (Json.obj xs) = 1 + sizeOf xs := by simp
      have hel : ∀ p ∈ xs, ∀ b : Json, jsonBeq p.2 b = true ↔ p.2 = b := by
        intro p hp b
        have h1 : sizeOf p < sizeOf xs := List.sizeOf_lt_of_mem hp
        have h3 : sizeOf p.2 < sizeOf p := by
          obtain ⟨k, v⟩ := p
          simp
        exact ihn p.2 (by omega) b
      cases b with
      | obj ys => simpa only [jsonBeq, Json.obj.injEq] using jsonObjBeq_iff xs ys hel
      | null => simp [jsonBeq]
      | bool y => simp [jsonBeq]
      | num y => simp [jsonBeq]
      | str y => simp [jsonBeq]
      | arr y => simp [jsonBeq]

instance : DecidableEq Json :=
  fun a b => decidable_of_iff (jsonBeq a b = true) (jsonBeq_iff a b)

/- First-match lookup in an association list, the dict read d[k]. -/
def lookupKey (k : String) : List (String × Json) → Option Json
  | [] => none
  | (k2, v) :: rest => if k2 = k then some v else lookupKey k rest

/- Dict write d[k] = v: replace the first binding in place, else append. -/
def setKey (k : String) (v : Json) : List (String × Json) → List (String × Json)
  | [] => [(k, v)]
  | (k2, v2) :: rest => if k2 = k then (k, v) :: rest else (k2, v2) :: setKey k v rest

/- Dict deletion del d[k] (also dict.pop(k, None)); keys are unique so
   removing every binding of k equals removing the one binding. -/
def eraseKey (k : String) (l : List (String × Json)) : List (String × Json) :=
  l.filter (fun p => p.1 ≠ k)

def containsKey (k : String) (l : List (String × Json)) : Bool :=
  (lookupKey k l).isSome

/- dict.get(k, default). -/
def getKeyD (l : List (String × Json)) (k : String) (d : Json) : Json :=
  (lookupKey k l).getD d

/- Python truthiness of a JSON-derived value. -/
def pyTruthy : Json → Bool
  | Json.null => false
  | Json.bool b => b
  | Json.num n =>
      match n with
      | PyNum.int i => decide (i ≠ 0)
      | _ => true
  | Json.str s => decide (s ≠ "")
  | Json.arr l => decide (l ≠ [])
  | Json.obj o => decide (o ≠ [])

/- The idiom a or b where a is dict.get(k) (None when absent). -/
def pyOr (a : Option Json) (b : Json) : Json :=
  match a with
  | some v => if pyTruthy v then v else b
  | none => b

/- A stored JSON null is the Python value None; dict.get hands back None
   for a missing key and for a stored null alike. -/
def noneIfNull : Option Json → Option Json
  | some Json.null => none
  | some v => some v
  | none => none

inductive Mode where
  | state : Mode
  | list : Mode
  | append : Mode
deriving DecidableEq, Repr

inductive SortOrder where
  | asc : SortOrder
  | desc : SortOrder
deriving DecidableEq, Repr

structure SortConfig where
  field : List String
  order : SortOrder
deriving DecidableEq, Repr

/- A simple stringification standing in for the Python str() applied to a
   non-scalar sort value; no property depends on its exact output. -/
def stringify : Json → String
  | Json.null => "None"
  | Json.bool b => if b then "True" else "False"
  | Json.num n => pyNumToString n
  | Json.str s => s
  | Json.arr _ => "[...]"
  | Json.obj _ => "{...}"

/- store.py _extract_sort_value: walk the field path through the record;
   a missing member, a null member or a non-dict intermediate gives None. -/
def extractLoop : Option Json → List String → Option Json
  | cur, [] => cur
  | some (Json.obj o), seg :: rest =>
      match noneIfNull (lookupKey seg o) with
      | none => none
      | some v => extractLoop (some v) rest
  | _, _ :: _ => none

def _extract_sort_value (data : Json) (fieldPath : List String) : Option Json :=
  extractLoop (noneIfNull (some data)) fieldPath

/- The tagged sort value (tag, payload) built by _make_sort_key.  DESC
   inverts boolean and numeric payloads; str(value) feeds the other kind. -/
inductive SVal where
  | absent : SVal
  | b : Bool → SVal
  | n : PyNum → SVal
  | s : String → SVal
  | o : String → SVal
deriving DecidableEq, Repr

def svalTag : SVal → Nat
  | SVal.absent => 0
  | SVal.b _ => 1
  | SVal.n _ => 2
  | SVal.s _ => 3
  | SVal.o _ => 4

/- Python < on the tagged sort values: the integer tags order the kinds,
   payloads of one kind compare within the kind. -/
def svalLt (a b : SVal) : Bool :=
  match a, b with
  | SVal.b x, SVal.b y => !x && y
  | SVal.n x, SVal.n y => pyNumLt x y
  | SVal.s x, SVal.s y => decide (x < y)
  | SVal.o x, SVal.o y => decide (x < y)
  | _, _ => decide (svalTag a < svalTag b)

/- store.py _make_sort_key.  The argument is None (absent) or the
   extracted JSON value; a JSON null is the Python value None as well. -/
def _make_sort_key (value : Option Json) (key : String) (order : SortOrder) :
    SVal × String :=
  match value with
  | none => (SVal.absent, key)
  | some Json.null => (SVal.absent, key)
  | some (Json.bool bv) =>
      (SVal.b (if order = SortOrder.desc then !bv else bv), key)
  | some (Json.num x) =>
      (SVal.n (if order = SortOrder.desc then -x else x), key)
  | some (Json.str sv) => (SVal.s sv, key)
  | some v => (SVal.o (stringify v), key)

/- Python < on the ((tag, payload), key) tuples used by bisect. -/
def sort_key_lt (a b : SVal × String) : Bool :=
  if a.1 = b.1 then decide (a.2 < b.2) else svalLt a.1 b.1

/- bisect.insort on a sorted list: insert after any equal elements. -/
def insort (x : SVal × String) : List (SVal × String) → List (SVal × String)
  | [] => [x]
  | y :: ys => if sort_key_lt x y then x :: y :: ys else y :: insort x ys

/- bisect_left followed by a guarded pop on a sorted list removes the
   first occurrence of the element when present. -/
def eraseSorted (x : SVal × String) (l : List (SVal × String)) :
    List (SVal × String) :=
  l.erase x

def eraseMapKey (k : String) (l : List (String × (SVal × String))) :
    List (String × (SVal × String)) :=
  l.filter (fun p => p.1 ≠ k)

def lookupMapKey (k : String) : List (String × (SVal × String)) →
    Option (SVal × String)
  | [] => none
  | (k2, v) :: rest => if k2 = k then some v else lookupMapKey k rest

def setMapKey (k : String) (v : SVal × String) :
    List (String × (SVal × String)) → List (String × (SVal × String))
  | [] => [(k, v)]
  | (k2, v2) :: rest =>
      if k2 = k then (k, v) :: rest else (k2, v2) :: setMapKey k v rest

def DEFAULT_MAX_ENTRIES_PER_VIEW : Nat := 10000

/- The view store (store.py Store).  The OrderedDict _data of the keyed
   modes is the list entries, front = oldest position; the list _data of
   append mode is seq.  updates logs every _notify_update call, a delete
   notifying None (a tombstone). -/
structure Store where
  mode : Mode
  max_entries : Option Nat
  sort_config : Option SortConfig
  entries : List (String × Json)
  seq : List Json
  sorted_keys : List (SVal × String)
  key_to_sort_key : List (String × (SVal × String))
  updates : List (String × Option Json)
deriving DecidableEq, Repr

def freshStore (mode : Mode) (max_entries : Option Nat)
    (sort_config : Option SortConfig) : Store :=
  { mode := mode, max_entries := max_entries, sort_config := sort_config,
    entries := [], seq := [], sorted_keys := [], key_to_sort_key := [],
    updates := [] }

/- store.py Store._insert_sorted. -/
def _insert_sorted (key : String) (data : Json) (s : Store) : Store :=
  match s.sort_config with
  | none => s
  | some cfg =>
      let s1 :=
        match lookupMapKey key s.key_to_sort_key with
        | some old => { s with sorted_keys := eraseSorted old s.sorted_keys }
        | none => s
      let raw_data := match data with | Json.obj _ => data | _ => Json.obj []
      let sk := _make_sort_key (_extract_sort_value raw_data cfg.field) key cfg.order
      { s1 with key_to_sort_key := setMapKey key sk s1.key_to_sort_key,
                sorted_keys := insort sk s1.sorted_keys }

/- store.py Store._remove_sorted. -/
def _remove_sorted (key : String) (s : Store) : Store :=
  match s.sort_config, lookupMapKey key s.key_to_sort_key with
  | some _, some old =>
      { s with key_to_sort_key := eraseMapKey key s.key_to_sort_key,
               sorted_keys := eraseSorted old s.sorted_keys }
  | _, _ => s

/- The while-loop of store.py Store._enforce_max_entries: pop the last
   sorted key when a sort configuration is active and sorted keys remain,
   else pop the front (oldest) OrderedDict item.  Each iteration shrinks
   entries or sorted_keys, so entries.length + sorted_keys.length bounds
   the number of iterations and serves as fuel. -/
def enforce_loop (maxE : Nat) : Nat → Store → Store
  | 0, s => s
  | fuel + 1, s =>
      if s.entries.length > maxE then
        match s.sort_config, s.sorted_keys.getLast? with
        | some _, some sk =>
            enforce_loop maxE fuel
              { s with sorted_keys := s.sorted_keys.dropLast,
                       key_to_sort_key := eraseMapKey sk.2 s.key_to_sort_key,
                       entries := eraseKey sk.2 s.entries }
        | _, _ =>
            enforce_loop maxE fuel { s with entries := s.entries.tail }
      else s

def _enforce_max_entries (s : Store) : Store :=
  match s.max_entries with
  | none => s
  | some m => enforce_loop m (s.entries.length + s.sorted_keys.length) s

def _notify_update (key : String) (data : Option Json) (s : Store) : Store :=
  { s with updates := s.updates ++ [(key, data)] }

/- OrderedDict.move_to_end(key); call sites always have the key present. -/
def move_to_end (k : String) (l : List (String × Json)) : List (String × Json) :=
  match lookupKey k l with
  | some v => eraseKey k l ++ [(k, v)]
  | none => l

mutual

/- The per-key outcome inside the store.py Store._deep_merge_with_append
   loop: both arrays concatenate when the dotted path is an append path,
   both dicts merge recursively, everything else takes the source value. -/
def _deep_merge_value : Json → Option Json → List String → String → Json
  | Json.arr ls, some (Json.arr lt), appendPaths, fieldPath =>
      if fieldPath ∈ appendPaths then Json.arr (lt ++ ls) else Json.arr ls
  | Json.obj sobj, some (Json.obj tobj), appendPaths, fieldPath =>
      Json.obj (_deep_merge_with_append tobj sobj appendPaths fieldPath)
  | sv, _, _, _ => sv

/- store.py Store._deep_merge_with_append: fold the source items into a
   copy of the target. -/
def _deep_merge_with_append :
    List (String × Json) → List (String × Json) → List String → String →
    List (String × Json)
  | result, [], _, _ => result
  | result, (k, sv) :: rest, appendPaths, currentPath =>
      _deep_merge_with_append
        (setKey k
          (_deep_merge_value sv (lookupKey k result) appendPaths
            (if currentPath = "" then k else currentPath ++ "." ++ k))
          result)
        rest appendPaths currentPath

end

/- store.py Store.apply_upsert (parser absent, so _parse_data = id). -/
def apply_upsert (key : String) (value : Json) (s : Store) : Store :=
  if s.mode = Mode.append then
    _notify_update key (some value) { s with seq := s.seq ++ [value] }
  else
    let s1 := { s with entries := setKey key value s.entries }
    let s2 :=
      match s1.sort_config with
      | some _ => _insert_sorted key value s1
      | none => { s1 with entries := move_to_end key s1.entries }
    _notify_update key (some value) (_enforce_max_entries s2)

/- The merged value Store.apply_patch computes: current defaults to an
   empty dict for a missing key, a dict current is deep-merged, any other
   current is replaced by the patch itself. -/
def patch_merged (key : String) (patch : List (String × Json))
    (append_paths : List String) (s : Store) : Json :=
  match (lookupKey key s.entries).getD (Json.obj []) with
  | Json.obj o => Json.obj (_deep_merge_with_append o patch append_paths "")
  | _ => Json.obj patch

/- store.py Store.apply_patch. -/
def apply_patch (key : String) (patch : List (String × Json))
    (append_paths : List String) (s : Store) : Store :=
  if s.mode = Mode.append then
    _notify_update key (some (Json.obj patch))
      { s with seq := s.seq ++ [Json.obj patch] }
  else
    let merged := patch_merged key patch append_paths s
    let s1 := { s with entries := setKey key merged s.entries }
    let s2 :=
      match s1.sort_config with
      | some _ => _insert_sorted key merged s1
      | none => { s1 with entries := move_to_end key s1.entries }
    _notify_update key (some merged) (_enforce_max_entries s2)

/- store.py Store.apply_delete. -/
def apply_delete (key : String) (s : Store) : Store :=
  if s.mode = Mode.append then s
  else if containsKey key s.entries then
    let s1 := _remove_sorted key s
    _notify_update key none { s1 with entries := eraseKey key s1.entries }
  else s

/- The frame as seen by Store.handle_frame: op came from JSON and may be
   any value; keys are strings and append is the list of path strings. -/
structure StoreFrame where
  op : Json
  key : String
  data : Json
  append : List String
deriving DecidableEq, Repr

def jsonObjParts : Json → List (String × Json)
  | Json.obj o => o
  | _ => []

/- store.py Store.handle_frame: a patch frame always carries an object
   payload (a non-object would fail in the source), hence jsonObjParts. -/
def handle_frame (f : StoreFrame) (s : Store) : Store :=
  if f.op = Json.str "upsert" then apply_upsert f.key f.data s
  else if f.op = Json.str "patch" then
    apply_patch f.key (jsonObjParts f.data) f.append s
  else if f.op = Json.str "delete" then apply_delete f.key s
  else apply_upsert f.key f.data s

/- store.py Store.get; returns the value together with the store, since a
   keyed unsorted read of a present key moves it to the end. -/
def Store.get (key : Option String) (s : Store) : Option Json × Store :=
  if s.mode = Mode.append then (s.seq.head?, s)
  else
    match key with
    | none =>
        match s.sort_config, s.sorted_keys.head? with
        | some _, some sk => (lookupKey sk.2 s.entries, s)
        | _, _ => ((s.entries.head?).map Prod.snd, s)
    | some k =>
        if containsKey k s.entries ∧ s.sort_config = none then
          (lookupKey k s.entries, { s with entries := move_to_end k s.entries })
        else (lookupKey k s.entries, s)

/- store.py Store.list_sorted. -/
def list_sorted (s : Store) : List Json :=
  if s.mode = Mode.append then s.seq
  else if s.sort_config.isSome ∧ s.sorted_keys ≠ [] then
    s.sorted_keys.filterMap (fun sk => lookupKey sk.2 s.entries)
  else s.entries.map Prod.snd

/- store.py Store.keys_sorted. -/
def keys_sorted (s : Store) : List String :=
  if s.mode = Mode.append then []
  else if s.sort_config.isSome ∧ s.sorted_keys ≠ [] then
    s.sorted_keys.map Prod.snd
  else s.entries.map Prod.fst

/- store.py Store._rebuild_sorted_keys. -/
def _rebuild_sorted_keys (s : Store) : Store :=
  let s0 := { s with sorted_keys := [], key_to_sort_key := [] }
  match s.sort_config with
  | none => s0
  | some cfg =>
      if s.mode = Mode.append then s0
      else
        s.entries.foldl
          (fun acc kv =>
            let raw_data := match kv.2 with | Json.obj _ => kv.2 | _ => Json.obj []
            let sk := _make_sort_key (_extract_sort_value raw_data cfg.field)
              kv.1 cfg.order
            { acc with
                key_to_sort_key := setMapKey kv.1 sk acc.key_to_sort_key,
                sorted_keys := insort sk acc.sorted_keys })
          s0

/- store.py Store.set_sort_config: a no-op once a configuration is set. -/
def set_sort_config (cfg : SortConfig) (s : Store) : Store :=
  match s.sort_config with
  | some _ => s
  | none => _rebuild_sorted_keys { s with sort_config := some cfg }

/- Reconciliation operations for replay, and their application. -/
inductive Op where
  | upsert (key : String) (value : Json) : Op
  | patch (key : String) (p : List (String × Json)) (paths : List String) : Op
  | delete (key : String) : Op
deriving DecidableEq, Repr

def applyOp (s : Store) : Op → Store
  | Op.upsert k v => apply_upsert k v s
  | Op.patch k p paths => apply_patch k p paths s
  | Op.delete k => apply_delete k s

def replay (ops : List Op) (s : Store) : Store := ops.foldl applyOp s

/- The fold model of the spec (section 8): upsert replaces wholesale,
   patch merges recursively treating a missing entry as the empty object,
   delete removes; the state is a bare key-to-value map. -/
def spec_merge (cur : Option Json) (p : List (String × Json))
    (paths : List String) : Json :=
  match cur.getD (Json.obj []) with
  | Json.obj o => Json.obj (_deep_merge_with_append o p paths "")
  | _ => Json.obj p

def spec_step (m : String → Option Json) : Op → (String → Option Json)
  | Op.upsert k v => fun q => if q = k then some v else m q
  | Op.patch k p paths =>
      fun q => if q = k then some (spec_merge (m k) p paths) else m q
  | Op.delete k => fun q => if q = k then none else m q

def spec_fold (ops : List Op) : String → Option Json :=
  ops.foldl spec_step (fun _ => none)

/- types.py Frame: the decoded wire frame.  Every field comes straight
   out of the parsed JSON, so all carry type Json here. -/
structure Frame where
  mode : Json
  entity : Json
  op : Json
  key : Json
  data : Json
  append : Json
deriving DecidableEq, Repr

/- types.py Frame.from_message after JSON parsing: the argument is none
   when the payload was not valid JSON.  parsed[x] on a non-dict or a
   missing key raises (modelled as none); dict.get with a default never
   does.  entity is parsed.get(export) or parsed.get(entity, ""), the
   Python `or` falling through on a falsy export. -/
def frame_from_message (parsed : Option Json) : Option Frame :=
  match parsed with
  | some (Json.obj o) =>
      match lookupKey "mode" o, lookupKey "op" o with
      | some m, some opv =>
          some { mode := m,
                 entity := pyOr (lookupKey "export" o) (getKeyD o "entity" (Json.str "")),
                 op := opv,
                 key := getKeyD o "key" (Json.str ""),
                 data := getKeyD o "data" (Json.obj []),
                 append := getKeyD o "append" (Json.arr []) }
      | _, _ => none
  | _ => none

/- types.py GZIP_MAGIC and is_gzip over raw transport bytes. -/
def GZIP_MAGIC : List Nat := [0x1f, 0x8b]

def is_gzip (data : List Nat) : Bool :=
  decide (data.length ≥ 2) && decide (data.take 2 = GZIP_MAGIC)

/- types.py parse_message on a bytes payload, abstracted over the gzip
   decompressor and the composition of utf-8 decoding with json.loads
   (both external library code): magic-byte sniffing chooses the branch. -/
def parse_message (decompress : List Nat → List Nat)
    (jparse : List Nat → Option Json) (data : List Nat) : Option Json :=
  if is_gzip data then jparse (decompress data) else jparse data

/- websocket.py WebSocketManager.connect retry loop, over an oracle
   giving the outcome of each attempt.  Returns the waits performed in order,
   the number of attempts made, and whether it ended connected (false =
   ConnectionError).  attempt grows every iteration and is bounded by the
   schedule length, which therefore serves as fuel. -/
def failFirst (f : Nat) : Nat → Bool := fun i => decide (f ≤ i)

def connect_loop (intervals : List Nat) (succeeds : Nat → Bool) :
    Nat → Nat → List Nat → List Nat × Nat × Bool
  | 0, attempt, waits => (waits, attempt, false)
  | fuel + 1, attempt, waits =>
      if attempt < intervals.length then
        if succeeds attempt then (waits, attempt + 1, true)
        else
          let a := attempt + 1
          if a ≥ intervals.length then (waits, a, false)
          else
            connect_loop intervals succeeds fuel a
              (waits ++ [intervals.getD (a - 1) 0])
      else (waits, attempt, false)

def ws_connect (intervals : List Nat) (succeeds : Nat → Bool) :
    List Nat × Nat × Bool :=
  connect_loop intervals succeeds (intervals.length + 1) 0 []

/- client.py HyperStackClient._on_connect resends every currently active
   subscription; the hook runs exactly when connect() succeeded. -/
def connect_with_resub (intervals : List Nat) (succeeds : Nat → Bool)
    (activeSubs : List String) : (List Nat × Nat × Bool) × List String :=
  let r := ws_connect intervals succeeds
  (r, if r.2.2 then activeSubs else [])

/- Observation helpers used to state properties. -/

/- Membership based on a dotted field path through nested objects. -/
def lookupPath : Json → List String → Option Json
  | j, [] => some j
  | Json.obj o, k :: rest =>
      match lookupKey k o with
      | some v => lookupPath v rest
      | none => none
  | _, _ :: _ => none

/- The dotted-path string the merge builds while recursing. -/
def joinSeg (cur k : String) : String := if cur = "" then k else cur ++ "." ++ k

def fieldPathFrom (cur : String) (p : List String) : String := p.foldl joinSeg cur

mutual

/- Well-formed JSON: every object has pairwise distinct keys, as any
   value produced by json.loads does. -/
def wfJson : Json → Bool
  | Json.arr l => wfJsonList l
  | Json.obj o => decide ((o.map Prod.fst).Nodup) && wfJsonObj o
  | _ => true

def wfJsonList : List Json → Bool
  | [] => true
  | x :: xs => wfJson x && wfJsonList xs

def wfJsonObj : List (String × Json) → Bool
  | [] => true
  | p :: xs => wfJson p.2 && wfJsonObj xs

end

/- Whether the store is within its configured capacity bound. -/
def within_bound (s : Store) : Prop :=
  match s.max_entries with
  | none => True
  | some m => s.entries.length ≤ m

instance (s : Store) : Decidable (within_bound s) := by
  unfold within_bound
  exact match s.max_entries with
  | none => inferInstanceAs (Decidable True)
  | some m => inferInstanceAs (Decidable (_ ≤ m))

/- Basic association-list lemmas. -/

theorem lookupKey_setKey_self (k : String) (v : Json) (l : List (String × Json)) :
    lookupKey k (setKey k v l) = some v := by
  induction l with
  | nil => simp [setKey, lookupKey]
  | cons p rest ih =>
    obtain ⟨k2, v2⟩ := p
    by_cases h : k2 = k <;> simp [setKey, lookupKey, h, ih]

theorem lookupKey_setKey_ne (k q : String) (v : Json) (l : List (String × Json))
    (h : q ≠ k) : lookupKey q (setKey k v l) = lookupKey q l := by
  have hkq : ¬ k = q := fun hh => h hh.symm
  induction l with
  | nil => simp [setKey, lookupKey, hkq]
  | cons p rest ih =>
    obtain ⟨k2, v2⟩ := p
    by_cases h2 : k2 = k
    · subst h2
      simp [setKey, lookupKey, hkq]
    · by_cases h3 : k2 = q
      · subst h3
        simp [setKey, lookupKey, h2]
      · simp [setKey, lookupKey, h2, h3, ih]

theorem lookupKey_eraseKey_self (k : String) (l : List (String × Json)) :
    lookupKey k (eraseKey k l) = none := by
  induction l with
  | nil => rfl
  | cons p rest ih =>
    obtain ⟨k2, v2⟩ := p
    by_cases h : k2 = k
    · simpa [eraseKey, h] using ih
    · simpa [eraseKey, lookupKey, h] using ih

theorem lookupKey_eraseKey_ne (k q : String) (l : List (String × Json))
    (h : q ≠ k) : lookupKey q (eraseKey k l) = lookupKey q l := by
  induction l with
  | nil => rfl
  | cons p rest ih =>
    obtain ⟨k2, v2⟩ := p
    by_cases h2 : k2 = k
    · subst h2
      have hkq : ¬ k2 = q := fun hh => h hh.symm
      simpa [eraseKey, lookupKey, hkq] using ih
    · by_cases h3 : k2 = q
      · subst h3
        simp [eraseKey, lookupKey, h2]
      · simpa [eraseKey, lookupKey, h2, h3] using ih

theorem lookupKey_mem (k : String) (v : Json) (l : List (String × Json))
    (h : lookupKey k l = some v) : (k, v) ∈ l := by
  induction l with
  | nil => simp [lookupKey] at h
  | cons p rest ih =>
    obtain ⟨k2, v2⟩ := p
    by_cases h2 : k2 = k
    · subst h2
      simp only [lookupKey, if_pos rfl] at h
      injection h with h
      subst h
      exact List.mem_cons_self _ _
    · simp only [lookupKey, h2, if_false] at h
      exact List.mem_cons_of_mem _ (ih h)

theorem lookupKey_append (q : String) (l1 l2 : List (String × Json)) :
    lookupKey q (l1 ++ l2)
      = match lookupKey q l1 with
        | some v => some v
        | none => lookupKey q l2 := by
  induction l1 with
  | nil => simp [lookupKey]
  | cons p rest ih =>
    obtain ⟨k2, v2⟩ := p
    by_cases h : k2 = q <;> simp [lookupKey, h, ih]

theorem lookupKey_move_to_end (k q : String) (l : List (String × Json)) :
    lookupKey q (move_to_end k l) = lookupKey q l := by
  unfold move_to_end
  cases hk : lookupKey k l with
  | none => rfl
  | some v =>
    rw [lookupKey_append]
    by_cases h : q = k
    · subst h
      simp [lookupKey_eraseKey_self, lookupKey, hk]
    · simp [lookupKey_eraseKey_ne k q l h]
      cases hq : lookupKey q l with
      | none =>
        simp [lookupKey]
        exact fun hh => h hh.symm
      | some w => simp

theorem length_eraseKey_le (k : String) (l : List (String × Json)) :
    (eraseKey k l).length ≤ l.length :=
  List.length_filter_le _ l

theorem eraseKey_cons_ne (k k2 : String) (v2 : Json) (rest : List (String × Json))
    (h : k2 ≠ k) : eraseKey k ((k2, v2) :: rest) = (k2, v2) :: eraseKey k rest := by
  simp [eraseKey, h]

theorem eraseKey_cons_self (k : String) (v2 : Json) (rest : List (String × Json)) :
    eraseKey k ((k, v2) :: rest) = eraseKey k rest := by
  simp [eraseKey]

theorem length_eraseKey_of_mem (k : String) (l : List (String × Json))
    (hnd : (l.map Prod.fst).Nodup) (hk : k ∈ l.map Prod.fst) :
    (eraseKey k l).length = l.length - 1 := by
  induction l with
  | nil => simp at hk
  | cons p rest ih =>
    obtain ⟨k2, v2⟩ := p
    simp only [List.map_cons, List.nodup_cons, List.mem_cons] at hnd hk
    by_cases h : k2 = k
    · subst h
      have hrest : eraseKey k2 rest = rest := by
        unfold eraseKey
        refine List.filter_eq_self.2 ?_
        intro p hp
        simp only [ne_eq, decide_eq_true_eq]
        intro hpk
        exact hnd.1 (hpk ▸ List.mem_map_of_mem Prod.fst hp)
      rw [eraseKey_cons_self, hrest]
      simp
    · rcases hk with hk | hk
      · exact absurd hk.symm h
      · have hlen := ih hnd.2 hk
        have hpos : 0 < rest.length := by
          rcases List.mem_map.1 hk with ⟨p, hp, _⟩
          exact List.length_pos.2 (fun hnil => by simp [hnil] at hp)
        rw [eraseKey_cons_ne k k2 v2 rest h]
        simp only [List.length_cons]
        omega

theorem length_setKey_of_contains (k : String) (v : Json)
    (l : List (String × Json)) (h : containsKey k l = true) :
    (setKey k v l).length = l.length := by
  induction l with
  | nil => simp [containsKey, lookupKey] at h
  | cons p rest ih =>
    obtain ⟨k2, v2⟩ := p
    by_cases h2 : k2 = k
    · simp [setKey, h2]
    · simp only [containsKey, lookupKey, h2, if_false] at h
      simp [setKey, h2, ih h]

theorem length_eraseKey_lt (k : String) (v : Json) (l : List (String × Json))
    (h : lookupKey k l = some v) : (eraseKey k l).length < l.length := by
  induction l with
  | nil => simp [lookupKey] at h
  | cons p rest ih =>
    obtain ⟨k2, v2⟩ := p
    by_cases h2 : k2 = k
    · subst h2
      rw [eraseKey_cons_self]
      have hle := length_eraseKey_le k2 rest
      simp only [List.length_cons]
      omega
    · simp only [lookupKey, h2, if_false] at h
      have hlt := ih h
      rw [eraseKey_cons_ne k k2 v2 rest h2]
      simp only [List.length_cons]
      omega

theorem length_move_to_end_le (k : String) (l : List (String × Json))
    (h : containsKey k l = true) : (move_to_end k l).length ≤ l.length := by
  unfold move_to_end
  cases hk : lookupKey k l with
  | none => simp [containsKey, hk] at h
  | some v =>
    have hlt := length_eraseKey_lt k v l hk
    simp only [List.length_append, List.length_cons, List.length_nil]
    omega

/- Field-preservation lemmas: the sort-index helpers touch neither the
   entries nor the configuration, and enforcement touches only the keyed
   containers. -/

theorem _insert_sorted_spec (k : String) (d : Json) (s : Store) :
    (_insert_sorted k d s).mode = s.mode
    ∧ (_insert_sorted k d s).max_entries = s.max_entries
    ∧ (_insert_sorted k d s).sort_config = s.sort_config
    ∧ (_insert_sorted k d s).entries = s.entries
    ∧ (_insert_sorted k d s).seq = s.seq
    ∧ (_insert_sorted k d s).updates = s.updates := by
  obtain ⟨md, mx, sc, en, sq, sks, kts, up⟩ := s
  unfold _insert_sorted
  cases sc with
  | none => simp
  | some cfg => cases lookupMapKey k kts <;> simp

theorem _remove_sorted_spec (k : String) (s : Store) :
    (_remove_sorted k s).mode = s.mode
    ∧ (_remove_sorted k s).max_entries = s.max_entries
    ∧ (_remove_sorted k s).sort_config = s.sort_config
    ∧ (_remove_sorted k s).entries = s.entries
    ∧ (_remove_sorted k s).seq = s.seq
    ∧ (_remove_sorted k s).updates = s.updates := by
  obtain ⟨md, mx, sc, en, sq, sks, kts, up⟩ := s
  unfold _remove_sorted
  cases sc with
  | none => simp
  | some cfg => cases lookupMapKey k kts <;> simp

theorem enforce_loop_config (m : Nat) : ∀ (fuel : Nat) (s : Store),
    (enforce_loop m fuel s).mode = s.mode
    ∧ (enforce_loop m fuel s).max_entries = s.max_entries
    ∧ (enforce_loop m fuel s).sort_config = s.sort_config
    ∧ (enforce_loop m fuel s).seq = s.seq
    ∧ (enforce_loop m fuel s).updates = s.updates := by
  intro fuel
  induction fuel with
  | zero => intro s; simp [enforce_loop]
  | succ f ih =>
    intro s
    simp only [enforce_loop]
    split
    · split
      · simpa using ih _
      · simpa using ih _
    · simp

theorem _enforce_config (s : Store) :
    (_enforce_max_entries s).mode = s.mode
    ∧ (_enforce_max_entries s).max_entries = s.max_entries
    ∧ (_enforce_max_entries s).sort_config = s.sort_config
    ∧ (_enforce_max_entries s).seq = s.seq
    ∧ (_enforce_max_entries s).updates = s.updates := by
  obtain ⟨md, mx, sc, en, sq, sks, kts, up⟩ := s
  unfold _enforce_max_entries
  cases mx with
  | none => simp
  | some m => exact enforce_loop_config m _ _

/- When the configured bound is absent or not exceeded, enforcement is
   the identity. -/

theorem enforce_loop_noop (m : Nat) (fuel : Nat) (s : Store)
    (h : s.entries.length ≤ m) : enforce_loop m fuel s = s := by
  cases fuel with
  | zero => rfl
  | succ f =>
    simp only [enforce_loop]
    rw [if_neg (by omega)]

theorem enforce_none (s : Store) (h : s.max_entries = none) :
    _enforce_max_entries s = s := by
  unfold _enforce_max_entries
  rw [h]

theorem enforce_within_bound (s : Store) (h : within_bound s) :
    _enforce_max_entries s = s := by
  unfold _enforce_max_entries
  unfold within_bound at h
  cases hm : s.max_entries with
  | none => rfl
  | some m =>
    rw [hm] at h
    exact enforce_loop_noop m _ s h

/- Enforcement always lands at or below the bound: every loop iteration
   strictly shrinks entries.length + sorted_keys.length, and once that
   sum is zero the entries are empty. -/
theorem enforce_loop_le (m : Nat) : ∀ (fuel : Nat) (s : Store),
    s.entries.length + s.sorted_keys.length ≤ fuel →
    (enforce_loop m fuel s).entries.length ≤ m := by
  intro fuel
  induction fuel with
  | zero =>
    intro s hs
    have : s.entries.length = 0 := by omega
    simp [enforce_loop, this]
  | succ f ih =>
    intro s hs
    simp only [enforce_loop]
    split
    · rename_i hlen
      split
      · rename_i c sk heq1 heq2
        refine ih _ ?_
        have h1 : (eraseKey sk.2 s.entries).length ≤ s.entries.length :=
          length_eraseKey_le _ _
        have h2 : s.sorted_keys ≠ [] := by
          intro hnil
          rw [hnil] at heq2
          simp at heq2
        have h3 : s.sorted_keys.dropLast.length = s.sorted_keys.length - 1 := by
          simp [List.length_dropLast]
        have h4 : 0 < s.sorted_keys.length := List.length_pos.2 h2
        simp only [h3]
        omega
      · rename_i hother
        refine ih _ ?_
        have h1 : s.entries ≠ [] := by
          intro hnil
          rw [hnil] at hlen
          simp at hlen
        have h2 : s.entries.tail.length = s.entries.length - 1 := by
          simp [List.length_tail]
        have h4 : 0 < s.entries.length := List.length_pos.2 h1
        simp only [h2]
        omega
    · rename_i hlen
      omega

theorem _enforce_le (s : Store) (m : Nat) (h : s.max_entries = some m) :
    (_enforce_max_entries s).entries.length ≤ m := by
  unfold _enforce_max_entries
  rw [h]
  exact enforce_loop_le m _ s le_rfl

/- Configuration fields survive every reconciliation operation. -/

theorem apply_upsert_config (k : String) (v : Json) (s : Store) :
    (apply_upsert k v s).mode = s.mode
    ∧ (apply_upsert k v s).max_entries = s.max_entries
    ∧ (apply_upsert k v s).sort_config = s.sort_config := by
  unfold apply_upsert
  split
  · simp [_notify_update]
  · simp only [_notify_update]
    split
    · rename_i cfg heq
      obtain ⟨e1, e2, e3, _, _⟩ := _enforce_config
        (_insert_sorted k v { s with entries := setKey k v s.entries })
      obtain ⟨i1, i2, i3, _, _, _⟩ :=
        _insert_sorted_spec k v { s with entries := setKey k v s.entries }
      refine ⟨?_, ?_, ?_⟩ <;> simp [e1, e2, e3, i1, i2, i3]
    · obtain ⟨e1, e2, e3, _, _⟩ := _enforce_config
        { s with entries := move_to_end k (setKey k v s.entries) }
      refine ⟨?_, ?_, ?_⟩ <;> simp [e1, e2, e3]

theorem apply_patch_config (k : String) (p : List (String × Json))
    (paths : List String) (s : Store) :
    (apply_patch k p paths s).mode = s.mode
    ∧ (apply_patch k p paths s).max_entries = s.max_entries
    ∧ (apply_patch k p paths s).sort_config = s.sort_config := by
  unfold apply_patch
  split
  · simp [_notify_update]
  · simp only [_notify_update]
    split
    · rename_i cfg heq
      obtain ⟨e1, e2, e3, _, _⟩ := _enforce_config
        (_insert_sorted k (patch_merged k p paths s)
          { s with entries := setKey k (patch_merged k p paths s) s.entries })
      obtain ⟨i1, i2, i3, _, _, _⟩ :=
        _insert_sorted_spec k (patch_merged k p paths s)
          { s with entries := setKey k (patch_merged k p paths s) s.entries }
      refine ⟨?_, ?_, ?_⟩ <;> simp [e1, e2, e3, i1, i2, i3]
    · obtain ⟨e1, e2, e3, _, _⟩ := _enforce_config
        { s with entries := move_to_end k (setKey k (patch_merged k p paths s) s.entries) }
      refine ⟨?_, ?_, ?_⟩ <;> simp [e1, e2, e3]

theorem apply_delete_config (k : String) (s : Store) :
    (apply_delete k s).mode = s.mode
    ∧ (apply_delete k s).max_entries = s.max_entries
    ∧ (apply_delete k s).sort_config = s.sort_config := by
  unfold apply_delete
  split
  · simp
  · split
    · simp only [_notify_update]
      obtain ⟨r1, r2, r3, _, _, _⟩ := _remove_sorted_spec k s
      refine ⟨?_, ?_, ?_⟩ <;> simp [r1, r2, r3]
    · simp

/- Lookup behaviour of each reconciliation operation on an unbounded
   keyed store (the enforcement step is the identity there). -/

theorem lookup_apply_upsert (k q : String) (v : Json) (s : Store)
    (hm : s.mode ≠ Mode.append) (hmax : s.max_entries = none) :
    lookupKey q (apply_upsert k v s).entries
      = if q = k then some v else lookupKey q s.entries := by
  unfold apply_upsert
  rw [if_neg hm]
  simp only [_notify_update]
  split
  · rename_i cfg heq
    obtain ⟨i1, i2, i3, i4, _, _⟩ :=
      _insert_sorted_spec k v { s with entries := setKey k v s.entries }
    rw [enforce_none _ (by rw [i2]; exact hmax)]
    rw [i4]
    by_cases hq : q = k
    · subst hq
      simp [lookupKey_setKey_self]
    · simp [hq, lookupKey_setKey_ne k q v s.entries hq]
  · rw [enforce_none _ (by exact hmax)]
    by_cases hq : q = k
    · subst hq
      simp [lookupKey_move_to_end, lookupKey_setKey_self]
    · simp [hq, lookupKey_move_to_end, lookupKey_setKey_ne k q v s.entries hq]

theorem lookup_apply_patch (k q : String) (p : List (String × Json))
    (paths : List String) (s : Store)
    (hm : s.mode ≠ Mode.append) (hmax : s.max_entries = none) :
    lookupKey q (apply_patch k p paths s).entries
      = if q = k then some (patch_merged k p paths s)
        else lookupKey q s.entries := by
  unfold apply_patch
  rw [if_neg hm]
  simp only [_notify_update]
  split
  · rename_i cfg heq
    obtain ⟨i1, i2, i3, i4, _, _⟩ :=
      _insert_sorted_spec k (patch_merged k p paths s)
        { s with entries := setKey k (patch_merged k p paths s) s.entries }
    rw [enforce_none _ (by rw [i2]; exact hmax)]
    rw [i4]
    by_cases hq : q = k
    · subst hq
      simp [lookupKey_setKey_self]
    · simp [hq, lookupKey_setKey_ne k q _ s.entries hq]
  · rw [enforce_none _ (by exact hmax)]
    by_cases hq : q = k
    · subst hq
      simp [lookupKey_move_to_end, lookupKey_setKey_self]
    · simp [hq, lookupKey_move_to_end, lookupKey_setKey_ne k q _ s.entries hq]

theorem lookup_apply_delete (k q : String) (s : Store)
    (hm : s.mode ≠ Mode.append) :
    lookupKey q (apply_delete k s).entries
      = if q = k then none else lookupKey q s.entries := by
  unfold apply_delete
  rw [if_neg hm]
  by_cases hc : containsKey k s.entries
  · rw [if_pos hc]
    simp only [_notify_update]
    obtain ⟨_, _, _, he, _, _⟩ := _remove_sorted_spec k s
    rw [he]
    by_cases hq : q = k
    · subst hq
      simp [lookupKey_eraseKey_self]
    · simp [hq, lookupKey_eraseKey_ne k q s.entries hq]
  · rw [if_neg hc]
    by_cases hq : q = k
    · subst hq
      rw [if_pos rfl]
      cases h : lookupKey q s.entries with
      | none => rfl
      | some v => simp [containsKey, h] at hc
    · rw [if_neg hq]

/- Update-log behaviour: each keyed operation appends exactly one
   notification (delete only when the key was present). -/

theorem updates_apply_patch (k : String) (p : List (String × Json))
    (paths : List String) (s : Store) (hm : s.mode ≠ Mode.append) :
    (apply_patch k p paths s).updates
      = s.updates ++ [(k, some (patch_merged k p paths s))] := by
  unfold apply_patch
  rw [if_neg hm]
  simp only [_notify_update]
  split
  · rename_i cfg heq
    obtain ⟨_, _, _, _, _, i6⟩ :=
      _insert_sorted_spec k (patch_merged k p paths s)
        { s with entries := setKey k (patch_merged k p paths s) s.entries }
    obtain ⟨_, _, _, _, e5⟩ := _enforce_config
      (_insert_sorted k (patch_merged k p paths s)
        { s with entries := setKey k (patch_merged k p paths s) s.entries })
    rw [e5, i6]
  · obtain ⟨_, _, _, _, e5⟩ := _enforce_config
      { s with entries := move_to_end k (setKey k (patch_merged k p paths s) s.entries) }
    rw [e5]

/- patch_merged is literally the spec-side merge of the current entry. -/
theorem patch_merged_spec_merge (k : String) (p : List (String × Json))
    (paths : List String) (s : Store) :
    patch_merged k p paths s = spec_merge (lookupKey k s.entries) p paths := rfl

theorem applyOp_config (s : Store) (op : Op) :
    (applyOp s op).mode = s.mode
    ∧ (applyOp s op).max_entries = s.max_entries
    ∧ (applyOp s op).sort_config = s.sort_config := by
  cases op with
  | upsert k v => exact apply_upsert_config k v s
  | patch k p paths => exact apply_patch_config k p paths s
  | delete k => exact apply_delete_config k s

/- Replaying operations on an unbounded keyed store refines the bare
   fold over a key-to-value map. -/
theorem replay_fold_aux : ∀ (ops : List Op) (s : Store) (mf : String → Option Json),
    s.mode ≠ Mode.append → s.sort_config = none → s.max_entries = none →
    (∀ q, lookupKey q s.entries = mf q) →
    ∀ q, lookupKey q (replay ops s).entries = (ops.foldl spec_step mf) q := by
  intro ops
  induction ops with
  | nil =>
    intro s mf _ _ _ h q
    simpa [replay] using h q
  | cons op rest ih =>
    intro s mf hm hsc hmax h q
    have hstep : ∀ q2, lookupKey q2 (applyOp s op).entries = (spec_step mf op) q2 := by
      intro q2
      cases op with
      | upsert k v =>
        have := lookup_apply_upsert k q2 v s hm hmax
        rw [show applyOp s (Op.upsert k v) = apply_upsert k v s from rfl, this]
        by_cases hq : q2 = k <;> simp [spec_step, hq, h q2]
      | patch k p paths =>
        have := lookup_apply_patch k q2 p paths s hm hmax
        rw [show applyOp s (Op.patch k p paths) = apply_patch k p paths s from rfl, this]
        rw [patch_merged_spec_merge, h k]
        by_cases hq : q2 = k <;> simp [spec_step, hq, h q2]
      | delete k =>
        have := lookup_apply_delete k q2 s hm
        rw [show applyOp s (Op.delete k) = apply_delete k s from rfl, this]
        by_cases hq : q2 = k <;> simp [spec_step, hq, h q2]
    obtain ⟨c1, c2, c3⟩ := applyOp_config s op
    have h1 : replay (op :: rest) s = replay rest (applyOp s op) := by
      simp [replay]
    have h2 : (op :: rest).foldl spec_step mf = rest.foldl spec_step (spec_step mf op) := by
      simp
    rw [h1, h2]
    exact ih (applyOp s op) (spec_step mf op) (by rw [c1]; exact hm)
      (by rw [c3]; exact hsc) (by rw [c2]; exact hmax) hstep q

/-- Claim C1: replaying any finite sequence of upsert/patch/delete
operations against a fresh keyed (state or list mode) store yields keyed
contents equal to the left fold of the sequence over an initially empty
map, with wholesale replace for upsert, recursive merge for patch and
removal for delete; the claim as stated fails for a bounded store because
eviction can drop entries (see the counterexample), so the fold equality
here is for a store with no capacity bound, while the concrete
upsert/patch/get/delete scenario holds on a default store. -/
theorem store_fold_refinement :
    (∀ (ops : List Op) (q : String),
        lookupKey q (replay ops (freshStore Mode.state none none)).entries
          = spec_fold ops q
      ∧ lookupKey q (replay ops (freshStore Mode.list none none)).entries
          = spec_fold ops q)
    ∧ ((Store.get (some "a") (apply_patch "a" [("n", Json.num 2)] []
          (apply_upsert "a" (Json.obj [("n", Json.num 1)])
            (freshStore Mode.list (some DEFAULT_MAX_ENTRIES_PER_VIEW) none)))).1
        = some (Json.obj [("n", Json.num 2)]))
    ∧ ((Store.get (some "a") (apply_delete "a" (apply_patch "a" [("n", Json.num 2)] []
          (apply_upsert "a" (Json.obj [("n", Json.num 1)])
            (freshStore Mode.list (some DEFAULT_MAX_ENTRIES_PER_VIEW) none))))).1
        = none) := by
  refine ⟨fun ops q => ⟨?_, ?_⟩, by decide, by decide⟩
  · exact replay_fold_aux ops (freshStore Mode.state none none) (fun _ => none)
      (by decide) rfl rfl (fun _ => rfl) q
  · exact replay_fold_aux ops (freshStore Mode.list none none) (fun _ => none)
      (by decide) rfl rfl (fun _ => rfl) q

/-- Claim C1 counterexample: on a fresh keyed store whose capacity bound
is 1, two upserts of distinct keys leave contents that differ from the
fold of the two operations: eviction has dropped key a while the fold
still holds it. -/
theorem store_fold_capacity_cex :
    lookupKey "a" (replay [Op.upsert "a" (Json.num 1), Op.upsert "b" (Json.num 2)]
        (freshStore Mode.list (some 1) none)).entries = none
    ∧ spec_fold [Op.upsert "a" (Json.num 1), Op.upsert "b" (Json.num 2)] "a"
        = some (Json.num 1) := by
  constructor
  · decide
  · rfl

/-- Claim C7: a payload produced by gzip compression (detected by the
0x1f 0x8b magic prefix) decodes by decompressing and parsing, giving
exactly the object the uncompressed bytes decode to, and any payload not
carrying the magic prefix is parsed directly as plain JSON, unchanged.
The decompressor and the JSON parser are external library code, abstracted
as functions subject to the round-trip and magic-prefix hypotheses. -/
theorem gzip_roundtrip (gz dz : List Nat → List Nat)
    (jp : List Nat → Option Json) (b : List Nat)
    (hrt : dz (gz b) = b) (hmagic : is_gzip (gz b) = true)
    (hplain : is_gzip b = false) :
    parse_message dz jp (gz b) = jp b
    ∧ parse_message dz jp (gz b) = parse_message dz jp b
    ∧ (∀ d : List Nat, is_gzip d = false → parse_message dz jp d = jp d) := by
  refine ⟨?_, ?_, ?_⟩
  · simp [parse_message, hmagic, hrt]
  · simp [parse_message, hmagic, hplain, hrt]
  · intro d hd
    simp [parse_message, hd]

/-- Claim C7 witness at a concrete toy compressor: prepending the magic
bytes stands in for gzip and dropping them for decompression. -/
theorem gzip_roundtrip_witness :
    parse_message (fun l => l.drop 2)
      (fun l => if l = [123, 125] then some (Json.obj []) else none)
      ((fun l => GZIP_MAGIC ++ l) [123, 125])
      = (fun l => if l = [123, 125] then some (Json.obj []) else none) [123, 125] :=
  (gzip_roundtrip (fun l => GZIP_MAGIC ++ l) (fun l => l.drop 2)
    (fun l => if l = [123, 125] then some (Json.obj []) else none) [123, 125]
    (by decide) (by decide) (by decide)).1

/-- Claim C10: a frame whose operation is neither patch nor delete,
including create, snapshot and every unknown operation value, is handled
exactly as an upsert of its key and data. -/
theorem handle_frame_default_upsert (f : StoreFrame) (s : Store)
    (h1 : f.op ≠ Json.str "patch") (h2 : f.op ≠ Json.str "delete") :
    handle_frame f s = apply_upsert f.key f.data s := by
  unfold handle_frame
  by_cases a : f.op = Json.str "upsert"
  · rw [if_pos a]
  · rw [if_neg a, if_neg h1, if_neg h2]

/-- Claim C10 witness at the snapshot operation. -/
theorem handle_frame_default_upsert_witness :
    handle_frame ⟨Json.str "snapshot", "k", Json.num 5, []⟩
        (freshStore Mode.list none none)
      = apply_upsert "k" (Json.num 5) (freshStore Mode.list none none) :=
  handle_frame_default_upsert ⟨Json.str "snapshot", "k", Json.num 5, []⟩
    (freshStore Mode.list none none) (by decide) (by decide)

theorem within_bound_iff (s : Store) :
    within_bound s ↔ ∀ m, s.max_entries = some m → s.entries.length ≤ m := by
  obtain ⟨md, mx, sc, en, sq, sks, kts, up⟩ := s
  cases mx <;> simp [within_bound]

/-- Claim C3 counterexample: patching the empty object at an absent key a
of a fresh keyed store is not value-preserving: the stored value for a
changes from absent to the empty object. -/
theorem patch_empty_absent_cex :
    (Store.get (some "a") (apply_patch "a" [] []
        (freshStore Mode.list (some DEFAULT_MAX_ENTRIES_PER_VIEW) none))).1
      = some (Json.obj [])
    ∧ (Store.get (some "a")
        (freshStore Mode.list (some DEFAULT_MAX_ENTRIES_PER_VIEW) none)).1
      = none := by
  constructor
  · decide
  · decide

/-- Claim C3 (amended): on a keyed store within its capacity bound, a
patch of the empty object at a key currently holding an object value
leaves the stored value unchanged and fires exactly one update
notification; a missing key instead gains the empty object as its value,
so the claim holds only for keys already present with object values
(repeated applications then change nothing further). -/
theorem patch_empty_idempotent (s : Store) (k : String) (o : List (String × Json))
    (hm : s.mode ≠ Mode.append) (hb : within_bound s)
    (hk : lookupKey k s.entries = some (Json.obj o)) :
    lookupKey k (apply_patch k [] [] s).entries = some (Json.obj o)
    ∧ (apply_patch k [] [] s).updates = s.updates ++ [(k, some (Json.obj o))] := by
  have hmerged : patch_merged k [] [] s = Json.obj o := by
    unfold patch_merged
    rw [hk]
    show Json.obj (_deep_merge_with_append o [] [] "") = Json.obj o
    rfl
  have hcont : containsKey k s.entries = true := by simp [containsKey, hk]
  have hlen1 : (setKey k (Json.obj o) s.entries).length = s.entries.length :=
    length_setKey_of_contains k _ _ hcont
  unfold apply_patch
  rw [if_neg hm]
  simp only [_notify_update, hmerged]
  split
  · rename_i cfg heq
    obtain ⟨i1, i2, i3, i4, i5, i6⟩ := _insert_sorted_spec k (Json.obj o)
      { s with entries := setKey k (Json.obj o) s.entries }
    have hwb : within_bound (_insert_sorted k (Json.obj o)
        { s with entries := setKey k (Json.obj o) s.entries }) := by
      refine (within_bound_iff _).2 (fun m hmx => ?_)
      rw [i2] at hmx
      rw [i4]
      have hs := (within_bound_iff s).1 hb m hmx
      calc (setKey k (Json.obj o) s.entries).length
          = s.entries.length := hlen1
        _ ≤ m := hs
    rw [enforce_within_bound _ hwb]
    constructor
    · rw [i4]
      exact lookupKey_setKey_self k _ s.entries
    · rw [i6]
  · have hcont2 : containsKey k (setKey k (Json.obj o) s.entries) = true := by
      simp [containsKey, lookupKey_setKey_self]
    have hwb : within_bound
        ({ s with entries :=
            move_to_end k (setKey k (Json.obj o) s.entries) } : Store) := by
      refine (within_bound_iff _).2 (fun m hmx => ?_)
      have hmx2 : s.max_entries = some m := hmx
      have hs := (within_bound_iff s).1 hb m hmx2
      have h2 := length_move_to_end_le k _ hcont2
      calc (move_to_end k (setKey k (Json.obj o) s.entries)).length
          ≤ (setKey k (Json.obj o) s.entries).length := h2
        _ = s.entries.length := hlen1
        _ ≤ m := hs
    rw [enforce_within_bound _ hwb]
    constructor
    · show lookupKey k (move_to_end k (setKey k (Json.obj o) s.entries))
        = some (Json.obj o)
      rw [lookupKey_move_to_end]
      exact lookupKey_setKey_self k _ s.entries
    · rfl

/-- Claim C3 witness: a concrete keyed store holding an object at key a,
where the empty patch leaves the value intact and logs one update. -/
theorem patch_empty_idempotent_witness :
    lookupKey "a" (apply_patch "a" [] []
        { mode := Mode.list, max_entries := some 10, sort_config := none,
          entries := [("a", Json.obj [("x", Json.num 1)])], seq := [],
          sorted_keys := [], key_to_sort_key := [], updates := [] }).entries
      = some (Json.obj [("x", Json.num 1)])
    ∧ (apply_patch "a" [] []
        { mode := Mode.list, max_entries := some 10, sort_config := none,
          entries := [("a", Json.obj [("x", Json.num 1)])], seq := [],
          sorted_keys := [], key_to_sort_key := [], updates := [] }).updates
      = [("a", some (Json.obj [("x", Json.num 1)]))] :=
  patch_empty_idempotent
    { mode := Mode.list, max_entries := some 10, sort_config := none,
      entries := [("a", Json.obj [("x", Json.num 1)])], seq := [],
      sorted_keys := [], key_to_sort_key := [], updates := [] }
    "a" [("x", Json.num 1)] (by decide) (by decide) (by decide)

/-- Claim C6 counterexample: a payload carrying mode and op but neither
entity nor the legacy export field decodes successfully, the entity
defaulting to the empty string, instead of failing as the claim states
for a payload lacking entity. -/
theorem frame_missing_entity_cex :
    frame_from_message
        (some (Json.obj [("mode", Json.str "state"), ("op", Json.str "upsert")]))
      = some { mode := Json.str "state", entity := Json.str "",
               op := Json.str "upsert", key := Json.str "",
               data := Json.obj [], append := Json.arr [] } := by
  decide

/-- Claim C6 (amended): decoding fails exactly when the payload is
invalid JSON, is not a JSON object, or lacks mode or op (the source
raises plain KeyError or JSONDecodeError, having no ProtocolError class);
a missing entity does not fail: entity defaults to the empty string when
both entity and the legacy export field are absent, a present truthy
export wins, and key, data and append-paths default to the empty string,
empty object and empty list. -/
theorem frame_decode_spec :
    (frame_from_message none = none)
    ∧ (∀ j : Json, (∀ o, j ≠ Json.obj o) → frame_from_message (some j) = none)
    ∧ (∀ o, frame_from_message (some (Json.obj o)) = none ↔
        (lookupKey "mode" o = none ∨ lookupKey "op" o = none))
    ∧ (∀ o m opv, lookupKey "mode" o = some m → lookupKey "op" o = some opv →
        lookupKey "export" o = none → lookupKey "entity" o = none →
        lookupKey "key" o = none → lookupKey "data" o = none →
        lookupKey "append" o = none →
        frame_from_message (some (Json.obj o))
          = some { mode := m, entity := Json.str "", op := opv,
                   key := Json.str "", data := Json.obj [],
                   append := Json.arr [] })
    ∧ (∀ o m opv e, lookupKey "mode" o = some m → lookupKey "op" o = some opv →
        lookupKey "export" o = none → lookupKey "entity" o = some e →
        (frame_from_message (some (Json.obj o))).map Frame.entity = some e)
    ∧ (∀ o m opv ex, lookupKey "mode" o = some m → lookupKey "op" o = some opv →
        lookupKey "export" o = some ex → pyTruthy ex = true →
        (frame_from_message (some (Json.obj o))).map Frame.entity = some ex) := by
  refine ⟨rfl, ?_, ?_, ?_, ?_, ?_⟩
  · intro j hj
    cases j with
    | obj o => exact absurd rfl (hj o)
    | null => rfl
    | bool b => rfl
    | num n => rfl
    | str s => rfl
    | arr l => rfl
  · intro o
    unfold frame_from_message
    cases hmo : lookupKey "mode" o with
    | none => simp [hmo]
    | some m =>
      cases hop : lookupKey "op" o with
      | none => simp [hmo, hop]
      | some opv => simp [hmo, hop]
  · intro o m opv h1 h2 h3 h4 h5 h6 h7
    unfold frame_from_message
    simp [h1, h2, pyOr, h3, getKeyD, h4, h5, h6, h7]
  · intro o m opv e h1 h2 h3 h4
    unfold frame_from_message
    simp [h1, h2, pyOr, h3, getKeyD, h4]
  · intro o m opv ex h1 h2 h3 h4
    unfold frame_from_message
    simp [h1, h2, pyOr, h3, h4]

/-- Claim C6 witness: concrete payloads exercising the amended decode
behaviour, including the legacy export field carrying the entity. -/
theorem frame_decode_spec_witness :
    (frame_from_message (some (Json.obj [("op", Json.str "upsert")])) = none
      ↔ (lookupKey "mode" [("op", Json.str "upsert")] = none
          ∨ lookupKey "op" [("op", Json.str "upsert")] = none))
    ∧ ((frame_from_message (some (Json.obj [("mode", Json.str "state"),
          ("op", Json.str "upsert"), ("export", Json.str "Widget")]))).map
        Frame.entity = some (Json.str "Widget")) :=
  ⟨(frame_decode_spec.2.2.1 [("op", Json.str "upsert")]),
    (frame_decode_spec.2.2.2.2.2 [("mode", Json.str "state"),
        ("op", Json.str "upsert"), ("export", Json.str "Widget")]
      (Json.str "state") (Json.str "upsert") (Json.str "Widget")
      (by decide) (by decide) (by decide) (by decide))⟩

theorem drop_cons_getD (l : List Nat) : ∀ (n : Nat), n < l.length →
    l.drop n = l.getD n 0 :: l.drop (n + 1) := by
  induction l with
  | nil => intro n h; simp at h
  | cons x xs ih =>
    intro n h
    cases n with
    | zero => simp [List.getD]
    | succ n2 =>
      simp only [List.length_cons] at h
      have h2 : n2 < xs.length := by omega
      simpa [List.getD] using ih n2 h2

/- The connect loop with the first f attempt outcomes failing: it makes
   one attempt per loop turn, waits intervals[j] after failure j while
   further schedule entries remain, and returns success on attempt f. -/
theorem connect_loop_success (intervals : List Nat) (f : Nat)
    (hf : f < intervals.length) :
    ∀ (kk fuel attempt : Nat) (waits : List Nat), attempt + kk = f → kk < fuel →
    connect_loop intervals (failFirst f) fuel attempt waits
      = (waits ++ (intervals.drop attempt).take kk, f + 1, true) := by
  intro kk
  induction kk with
  | zero =>
    intro fuel attempt waits hsum hfuel
    cases fuel with
    | zero => omega
    | succ fuel2 =>
      have ha : attempt = f := by omega
      have hsucc : failFirst f f = true := by
        simp [failFirst]
      simp [connect_loop, ha, hf, hsucc]
  | succ kk2 ih =>
    intro fuel attempt waits hsum hfuel
    cases fuel with
    | zero => omega
    | succ fuel2 =>
      have hlt : attempt < f := by omega
      have hlt2 : attempt < intervals.length := by omega
      have hfail : failFirst f attempt = false := by
        simp only [failFirst, decide_eq_false_iff_not]
        omega
      have hnot : ¬ (attempt + 1 ≥ intervals.length) := by omega
      have hrec := ih fuel2 (attempt + 1)
        (waits ++ [intervals.getD (attempt + 1 - 1) 0]) (by omega) (by omega)
      simp only [connect_loop, hlt2, if_pos, hfail, Bool.false_eq_true, if_false,
        if_neg hnot, hrec]
      rw [drop_cons_getD intervals attempt hlt2]
      simp [List.take_succ_cons]

theorem connect_loop_exhaust (intervals : List Nat) (f : Nat)
    (hf : intervals.length ≤ f) :
    ∀ (kk fuel attempt : Nat) (waits : List Nat),
    attempt + kk = intervals.length → 0 < kk → kk ≤ fuel →
    connect_loop intervals (failFirst f) fuel attempt waits
      = (waits ++ (intervals.drop attempt).take (kk - 1),
         intervals.length, false) := by
  intro kk
  induction kk with
  | zero => intro fuel attempt waits h1 h2 h3; omega
  | succ kk2 ih =>
    intro fuel attempt waits h1 h2 h3
    cases fuel with
    | zero => omega
    | succ fuel2 =>
      have hlt2 : attempt < intervals.length := by omega
      have hfail : failFirst f attempt = false := by
        simp only [failFirst, decide_eq_false_iff_not]
        omega
      cases kk2 with
      | zero =>
        have hge : attempt + 1 ≥ intervals.length := by omega
        simp [connect_loop, hlt2, hfail, hge]
        omega
      | succ kk3 =>
        have hnot : ¬ (attempt + 1 ≥ intervals.length) := by omega
        have hrec := ih fuel2 (attempt + 1)
          (waits ++ [intervals.getD (attempt + 1 - 1) 0]) (by omega) (by omega)
          (by omega)
        simp only [connect_loop, hlt2, if_pos, hfail, Bool.false_eq_true, if_false,
          if_neg hnot, hrec]
        rw [drop_cons_getD intervals attempt hlt2]
        simp [List.take_succ_cons]

/-- Claim C8 counterexample: with backoff schedule [1, 2], two consecutive
connect failures followed by an available success do not reconnect: the
loop makes exactly two attempts, waits only 1 time unit, and raises
ConnectionError without ever trying the third attempt that would have
succeeded. -/
theorem connect_two_failures_cex :
    ws_connect [1, 2] (failFirst 2) = ([1], 2, false)
    ∧ failFirst 2 2 = true := by
  constructor
  · rfl
  · rfl

/-- Claim C8 (amended): connect() makes at most as many attempts as the
schedule has entries, waiting schedule[j] after the j-th failure only
while further attempts remain: f failures followed by success (f below
the schedule length) connect exactly once after waiting schedule[0..f-1]
and then resend every currently active subscription; once the schedule
length in consecutive failures is reached it raises ConnectionError after
waiting only schedule[0..length-2], resending nothing - so the last
schedule entry is never waited, and with schedule [1, 2] two consecutive
failures already exhaust it. -/
theorem connect_backoff_spec :
    (∀ (intervals : List Nat) (f : Nat) (subs : List String),
       f < intervals.length →
       connect_with_resub intervals (failFirst f) subs
         = ((intervals.take f, f + 1, true), subs))
    ∧ (∀ (intervals : List Nat) (f : Nat) (subs : List String),
       intervals.length ≤ f → intervals ≠ [] →
       connect_with_resub intervals (failFirst f) subs
         = ((intervals.take (intervals.length - 1), intervals.length, false), []))
    ∧ (∀ (succeeds : Nat → Bool) (subs : List String),
       connect_with_resub [] succeeds subs = (([], 0, false), [])) := by
  refine ⟨?_, ?_, ?_⟩
  · intro intervals f subs hf
    unfold connect_with_resub ws_connect
    rw [connect_loop_success intervals f hf f (intervals.length + 1) 0 []
      (by omega) (by omega)]
    simp
  · intro intervals f subs hf hne
    have hpos : 0 < intervals.length := List.length_pos.2 hne
    unfold connect_with_resub ws_connect
    rw [connect_loop_exhaust intervals f hf intervals.length
      (intervals.length + 1) 0 [] (by omega) (by omega) (by omega)]
    simp
  · intro succeeds subs
    unfold connect_with_resub ws_connect
    simp [connect_loop]

/-- Claim C8 witness: schedule [1, 2, 4] with two failures then success
connects on the third attempt after waiting 1 then 2 units and resends
the active subscriptions; the same schedule with three failures raises
ConnectionError after waiting 1 then 2, the final 4 never being waited. -/
theorem connect_backoff_spec_witness :
    connect_with_resub [1, 2, 4] (failFirst 2) ["Widget/list"]
      = (([1, 2], 3, true), ["Widget/list"])
    ∧ connect_with_resub [1, 2, 4] (failFirst 3) ["Widget/list"]
      = (([1, 2], 3, false), []) :=
  ⟨connect_backoff_spec.1 [1, 2, 4] 2 ["Widget/list"] (by decide),
   connect_backoff_spec.2.1 [1, 2, 4] 3 ["Widget/list"] (by decide) (by decide)⟩

theorem svalLt_irrefl (a : SVal) : svalLt a a = false := by
  cases a with
  | absent => rfl
  | b x => cases x <;> rfl
  | n x => cases x <;> simp [svalLt, pyNumLt]
  | s x => simp [svalLt]
  | o x => simp [svalLt]

/- Trichotomy of the payload comparison, away from NaN: a NaN sort value
   compares False against every other number in both directions, so it is
   excluded here and refutes the unrestricted claim (see the
   counterexample below). -/
theorem svalLt_trichot : ∀ (a b : SVal),
    a ≠ SVal.n PyNum.nan → b ≠ SVal.n PyNum.nan →
    a = b
    ∨ (svalLt a b = true ∧ svalLt b a = false)
    ∨ (svalLt a b = false ∧ svalLt b a = true) := by
  intro a b hna hnb
  cases a with
  | absent =>
    cases b with
    | absent => exact Or.inl rfl
    | b y => exact Or.inr (Or.inl ⟨rfl, rfl⟩)
    | n y => exact Or.inr (Or.inl ⟨rfl, rfl⟩)
    | s y => exact Or.inr (Or.inl ⟨rfl, rfl⟩)
    | o y => exact Or.inr (Or.inl ⟨rfl, rfl⟩)
  | b x =>
    cases b with
    | absent => exact Or.inr (Or.inr ⟨rfl, rfl⟩)
    | b y => cases x <;> cases y <;> decide
    | n y => exact Or.inr (Or.inl ⟨rfl, rfl⟩)
    | s y => exact Or.inr (Or.inl ⟨rfl, rfl⟩)
    | o y => exact Or.inr (Or.inl ⟨rfl, rfl⟩)
  | n x =>
    cases b with
    | absent => exact Or.inr (Or.inr ⟨rfl, rfl⟩)
    | b y => exact Or.inr (Or.inr ⟨rfl, rfl⟩)
    | n y =>
      cases x with
      | int i =>
        cases y with
        | int j =>
          rcases lt_trichotomy i j with h | h | h
          · refine Or.inr (Or.inl ⟨?_, ?_⟩) <;>
              simp only [svalLt, pyNumLt, decide_eq_true_eq,
                decide_eq_false_iff_not] <;> omega
          · exact Or.inl (by rw [h])
          · refine Or.inr (Or.inr ⟨?_, ?_⟩) <;>
              simp only [svalLt, pyNumLt, decide_eq_true_eq,
                decide_eq_false_iff_not] <;> omega
        | inf => exact Or.inr (Or.inl ⟨rfl, rfl⟩)
        | ninf => exact Or.inr (Or.inr ⟨rfl, rfl⟩)
        | nan => exact absurd rfl hnb
      | inf =>
        cases y with
        | int j => exact Or.inr (Or.inr ⟨rfl, rfl⟩)
        | inf => exact Or.inl rfl
        | ninf => exact Or.inr (Or.inr ⟨rfl, rfl⟩)
        | nan => exact absurd rfl hnb
      | ninf =>
        cases y with
        | int j => exact Or.inr (Or.inl ⟨rfl, rfl⟩)
        | inf => exact Or.inr (Or.inl ⟨rfl, rfl⟩)
        | ninf => exact Or.inl rfl
        | nan => exact absurd rfl hnb
      | nan => exact absurd rfl hna
    | s y => exact Or.inr (Or.inl ⟨rfl, rfl⟩)
    | o y => exact Or.inr (Or.inl ⟨rfl, rfl⟩)
  | s x =>
    cases b with
    | absent => exact Or.inr (Or.inr ⟨rfl, rfl⟩)
    | b y => exact Or.inr (Or.inr ⟨rfl, rfl⟩)
    | n y => exact Or.inr (Or.inr ⟨rfl, rfl⟩)
    | s y =>
      rcases lt_trichotomy x y with h | h | h
      · refine Or.inr (Or.inl ⟨?_, ?_⟩)
        · simp only [svalLt, decide_eq_true_eq]
          exact h
        · simp only [svalLt, decide_eq_false_iff_not]
          exact lt_asymm h
      · exact Or.inl (by rw [h])
      · refine Or.inr (Or.inr ⟨?_, ?_⟩)
        · simp only [svalLt, decide_eq_false_iff_not]
          exact lt_asymm h
        · simp only [svalLt, decide_eq_true_eq]
          exact h
    | o y => exact Or.inr (Or.inl ⟨rfl, rfl⟩)
  | o x =>
    cases b with
    | absent => exact Or.inr (Or.inr ⟨rfl, rfl⟩)
    | b y => exact Or.inr (Or.inr ⟨rfl, rfl⟩)
    | n y => exact Or.inr (Or.inr ⟨rfl, rfl⟩)
    | s y => exact Or.inr (Or.inr ⟨rfl, rfl⟩)
    | o y =>
      rcases lt_trichotomy x y with h | h | h
      · refine Or.inr (Or.inl ⟨?_, ?_⟩)
        · simp only [svalLt, decide_eq_true_eq]
          exact h
        · simp only [svalLt, decide_eq_false_iff_not]
          exact lt_asymm h
      · exact Or.inl (by rw [h])
      · refine Or.inr (Or.inr ⟨?_, ?_⟩)
        · simp only [svalLt, decide_eq_false_iff_not]
          exact lt_asymm h
        · simp only [svalLt, decide_eq_true_eq]
          exact h

theorem _make_sort_key_snd (v : Option Json) (k : String) (ord : SortOrder) :
    (_make_sort_key v k ord).2 = k := by
  cases v with
  | none => rfl
  | some j => cases j <;> rfl

/-- Claim C5 counterexample: json.loads admits the float NaN, and for a
record whose sort value is NaN against a record with a numeric sort value
both strict comparisons of the derived sort keys are False, although the
entry keys differ - neither (a before b) nor (b before a) holds, so the
derived sort keys do not stand in a strict total order as the claim
states. -/
theorem sort_key_nan_cex :
    sort_key_lt (_make_sort_key (some (Json.num PyNum.nan)) "a" SortOrder.asc)
        (_make_sort_key (some (Json.num (PyNum.int 1))) "c" SortOrder.asc)
      = false
    ∧ sort_key_lt (_make_sort_key (some (Json.num (PyNum.int 1))) "c" SortOrder.asc)
        (_make_sort_key (some (Json.num PyNum.nan)) "a" SortOrder.asc)
      = false
    ∧ ("a" : String) ≠ "c" := by
  refine ⟨by decide, by decide, by decide⟩

/-- Claim C5 (amended): for any two entries with distinct keys whose
derived sort values are not the float NaN, the derived sort keys stand in
a strict total order: exactly one of the two strict comparisons holds
(and the derivation is a pure function of the stored values, hence stable
across repeated queries absent mutation); under the same NaN exclusion a
tie on the classified sort value is broken by the entry key ascending;
and a descending configuration inverts numeric and boolean sort values
while leaving string values uninverted.  A NaN sort value breaks the
total order (see the counterexample). -/
theorem sort_key_total_order :
    (∀ (v1 v2 : Option Json) (k1 k2 : String) (ord : SortOrder), k1 ≠ k2 →
      (_make_sort_key v1 k1 ord).1 ≠ SVal.n PyNum.nan →
      (_make_sort_key v2 k2 ord).1 ≠ SVal.n PyNum.nan →
      (sort_key_lt (_make_sort_key v1 k1 ord) (_make_sort_key v2 k2 ord) = true
        ∧ sort_key_lt (_make_sort_key v2 k2 ord) (_make_sort_key v1 k1 ord) = false)
      ∨ (sort_key_lt (_make_sort_key v1 k1 ord) (_make_sort_key v2 k2 ord) = false
        ∧ sort_key_lt (_make_sort_key v2 k2 ord) (_make_sort_key v1 k1 ord) = true))
    ∧ (∀ (v1 v2 : Option Json) (k1 k2 : String) (ord : SortOrder),
        (_make_sort_key v1 k1 ord).1 = (_make_sort_key v2 k2 ord).1 →
        (_make_sort_key v1 k1 ord).1 ≠ SVal.n PyNum.nan →
        sort_key_lt (_make_sort_key v1 k1 ord) (_make_sort_key v2 k2 ord)
          = decide (k1 < k2))
    ∧ (∀ (x : PyNum) (k : String),
        _make_sort_key (some (Json.num x)) k SortOrder.desc = (SVal.n (-x), k))
    ∧ (∀ (bv : Bool) (k : String),
        _make_sort_key (some (Json.bool bv)) k SortOrder.desc = (SVal.b (!bv), k))
    ∧ (∀ (sv : String) (k : String),
        _make_sort_key (some (Json.str sv)) k SortOrder.desc
          = _make_sort_key (some (Json.str sv)) k SortOrder.asc) := by
  have hkeylt : ∀ (a b : SVal × String), a.2 ≠ b.2 →
      a.1 ≠ SVal.n PyNum.nan → b.1 ≠ SVal.n PyNum.nan →
      (sort_key_lt a b = true ∧ sort_key_lt b a = false)
      ∨ (sort_key_lt a b = false ∧ sort_key_lt b a = true) := by
    intro a b hne hna hnb
    rcases svalLt_trichot a.1 b.1 hna hnb with heq | ⟨h1, h2⟩ | ⟨h1, h2⟩
    · unfold sort_key_lt
      rw [if_pos heq, if_pos heq.symm]
      rcases lt_trichotomy a.2 b.2 with h | h | h
      · exact Or.inl ⟨by simp [h], by simp [lt_asymm h]⟩
      · exact absurd h hne
      · exact Or.inr ⟨by simp [lt_asymm h], by simp [h]⟩
    · have hne1 : a.1 ≠ b.1 := by
        intro hcontra
        rw [hcontra, svalLt_irrefl] at h1
        exact Bool.noConfusion h1
      unfold sort_key_lt
      rw [if_neg hne1, if_neg (Ne.symm hne1)]
      exact Or.inl ⟨h1, h2⟩
    · have hne1 : a.1 ≠ b.1 := by
        intro hcontra
        rw [hcontra, svalLt_irrefl] at h2
        exact Bool.noConfusion h2
      unfold sort_key_lt
      rw [if_neg hne1, if_neg (Ne.symm hne1)]
      exact Or.inr ⟨h1, h2⟩
  refine ⟨?_, ?_, ?_, ?_, ?_⟩
  · intro v1 v2 k1 k2 ord hk hn1 hn2
    refine hkeylt _ _ ?_ hn1 hn2
    rw [_make_sort_key_snd, _make_sort_key_snd]
    exact hk
  · intro v1 v2 k1 k2 ord heq hn1
    unfold sort_key_lt
    rw [if_pos heq, _make_sort_key_snd, _make_sort_key_snd]
  · intro x k
    rfl
  · intro bv k
    rfl
  · intro sv k
    rfl

/-- Claim C5 witness: two concrete records sorted descending by a numeric
field with finite values, where exactly one ordering direction holds. -/
theorem sort_key_total_order_witness :
    (sort_key_lt (_make_sort_key (some (Json.num 1)) "a" SortOrder.desc)
        (_make_sort_key (some (Json.num 2)) "b" SortOrder.desc) = true
      ∧ sort_key_lt (_make_sort_key (some (Json.num 2)) "b" SortOrder.desc)
        (_make_sort_key (some (Json.num 1)) "a" SortOrder.desc) = false)
    ∨ (sort_key_lt (_make_sort_key (some (Json.num 1)) "a" SortOrder.desc)
        (_make_sort_key (some (Json.num 2)) "b" SortOrder.desc) = false
      ∧ sort_key_lt (_make_sort_key (some (Json.num 2)) "b" SortOrder.desc)
        (_make_sort_key (some (Json.num 1)) "a" SortOrder.desc) = true) :=
  sort_key_total_order.1 (some (Json.num 1)) (some (Json.num 2)) "a" "b"
    SortOrder.desc (by decide) (by decide) (by decide)

theorem wfJsonObj_mem (o : List (String × Json)) (hwf : wfJsonObj o = true) :
    ∀ p ∈ o, wfJson p.2 = true := by
  induction o with
  | nil => intro p hp; simp at hp
  | cons q rest ih =>
    intro p hp
    simp only [wfJsonObj, Bool.and_eq_true] at hwf
    rcases List.mem_cons.1 hp with h | h
    · subst h
      exact hwf.1
    · exact ih hwf.2 p h

theorem wfJson_obj_parts (o : List (String × Json))
    (hwf : wfJson (Json.obj o) = true) :
    (o.map Prod.fst).Nodup ∧ ∀ p ∈ o, wfJson p.2 = true := by
  simp only [wfJson, Bool.and_eq_true, decide_eq_true_eq] at hwf
  exact ⟨hwf.1, wfJsonObj_mem o hwf.2⟩

/- Lookup characterization of the deep merge: keys absent from the source
   keep their target binding; keys present in the source take the per-key
   merge outcome against the target binding. -/
theorem lookup_deep_merge (k : String) :
    ∀ (s t : List (String × Json)) (paths : List String) (cur : String),
    (s.map Prod.fst).Nodup →
    lookupKey k (_deep_merge_with_append t s paths cur)
      = match lookupKey k s with
        | none => lookupKey k t
        | some sv =>
            some (_deep_merge_value sv (lookupKey k t) paths (joinSeg cur k)) := by
  intro s
  induction s with
  | nil =>
    intro t paths cur hnd
    simp [_deep_merge_with_append, lookupKey]
  | cons p rest ih =>
    obtain ⟨k2, sv2⟩ := p
    intro t paths cur hnd
    simp only [List.map_cons, List.nodup_cons] at hnd
    rw [show _deep_merge_with_append t ((k2, sv2) :: rest) paths cur
        = _deep_merge_with_append
            (setKey k2 (_deep_merge_value sv2 (lookupKey k2 t) paths
              (if cur = "" then k2 else cur ++ "." ++ k2)) t) rest paths cur
        from rfl]
    rw [ih _ paths cur hnd.2]
    by_cases hk : k2 = k
    · subst hk
      have hrest : lookupKey k2 rest = none := by
        cases hl : lookupKey k2 rest with
        | none => rfl
        | some v =>
          exact absurd (List.mem_map_of_mem Prod.fst (lookupKey_mem _ _ _ hl))
            hnd.1
      simp [hrest, lookupKey, lookupKey_setKey_self, joinSeg]
    · have hset := lookupKey_setKey_ne k2 k
        (_deep_merge_value sv2 (lookupKey k2 t) paths
          (if cur = "" then k2 else cur ++ "." ++ k2)) t (fun hh => hk hh.symm)
      cases hl : lookupKey k rest with
      | none => simp [hl, lookupKey, hk, hset]
      | some sv => simp [hl, lookupKey, hk, hset]

/- Concatenation along a dotted append path, threading the current path
   prefix through the recursion. -/
theorem deep_merge_path_concat : ∀ (p : List String) (t s : List (String × Json))
    (paths : List String) (cur : String) (lt2 ls2 : List Json),
    wfJson (Json.obj s) = true →
    lookupPath (Json.obj t) p = some (Json.arr lt2) →
    lookupPath (Json.obj s) p = some (Json.arr ls2) →
    fieldPathFrom cur p ∈ paths →
    lookupPath (Json.obj (_deep_merge_with_append t s paths cur)) p
      = some (Json.arr (lt2 ++ ls2)) := by
  intro p
  induction p with
  | nil =>
    intro t s paths cur lt2 ls2 hwf ht hs hmem
    simp [lookupPath] at ht
  | cons seg rest ih =>
    intro t s paths cur lt2 ls2 hwf ht hs hmem
    obtain ⟨hnd, hmemwf⟩ := wfJson_obj_parts s hwf
    simp only [lookupPath] at ht hs
    cases hlt : lookupKey seg t with
    | none =>
      rw [hlt] at ht
      exact absurd ht (by simp)
    | some tv =>
      rw [hlt] at ht
      cases hls : lookupKey seg s with
      | none =>
        rw [hls] at hs
        exact absurd hs (by simp)
      | some sv =>
        rw [hls] at hs
        have hL := lookup_deep_merge seg s t paths cur hnd
        rw [hls, hlt] at hL
        cases rest with
        | nil =>
          simp only [lookupPath] at ht hs
          injection ht with ht2
          injection hs with hs2
          subst ht2
          subst hs2
          have hfp : fieldPathFrom cur [seg] = joinSeg cur seg := rfl
          rw [hfp] at hmem
          simp only [lookupPath]
          rw [hL]
          simp [_deep_merge_value, hmem, lookupPath]
        | cons r rs =>
          cases tv with
          | null => simp [lookupPath] at ht
          | bool b2 => simp [lookupPath] at ht
          | num n2 => simp [lookupPath] at ht
          | str s2 => simp [lookupPath] at ht
          | arr l2 => simp [lookupPath] at ht
          | obj tobj =>
            cases sv with
            | null => simp [lookupPath] at hs
            | bool b2 => simp [lookupPath] at hs
            | num n2 => simp [lookupPath] at hs
            | str s2 => simp [lookupPath] at hs
            | arr l2 => simp [lookupPath] at hs
            | obj sobj =>
              have hswf : wfJson (Json.obj sobj) = true :=
                hmemwf (seg, Json.obj sobj) (lookupKey_mem _ _ _ hls)
              have hmem2 : fieldPathFrom (joinSeg cur seg) (r :: rs) ∈ paths := by
                simpa [fieldPathFrom] using hmem
              have hih := ih tobj sobj paths (joinSeg cur seg) lt2 ls2 hswf ht hs
                hmem2
              simp only [lookupPath]
              rw [hL]
              simpa [_deep_merge_value] using hih

/- The default arm of the per-key merge: anything that is not a pair of
   objects, and not a pair of arrays on an append path, is the source
   value outright. -/
theorem _deep_merge_value_default (sv : Json) (tv : Option Json)
    (paths : List String) (fp : String)
    (hobj : ∀ sobj tobj, sv = Json.obj sobj → tv ≠ some (Json.obj tobj))
    (harr : ∀ ls2 lt2, sv = Json.arr ls2 → tv = some (Json.arr lt2) →
      fp ∉ paths) :
    _deep_merge_value sv tv paths fp = sv := by
  cases sv with
  | arr ls2 =>
    cases tv with
    | none => rfl
    | some tj =>
      cases tj with
      | arr lt2 =>
        have h := harr ls2 lt2 rfl rfl
        simp [_deep_merge_value, h]
      | null => rfl
      | bool b2 => rfl
      | num n2 => rfl
      | str s2 => rfl
      | obj o2 => rfl
  | obj sobj =>
    cases tv with
    | none => rfl
    | some tj =>
      cases tj with
      | obj tobj => exact absurd rfl (hobj sobj tobj rfl)
      | null => rfl
      | bool b2 => rfl
      | num n2 => rfl
      | str s2 => rfl
      | arr l2 => rfl
  | null => cases tv with
    | none => rfl
    | some tj => cases tj <;> rfl
  | bool b2 => cases tv with
    | none => rfl
    | some tj => cases tj <;> rfl
  | num n2 => cases tv with
    | none => rfl
    | some tj => cases tj <;> rfl
  | str s2 => cases tv with
    | none => rfl
    | some tj => cases tj <;> rfl

/-- Claim C2: patch deep-merges the supplied record into the existing
entry: a key absent from the patch keeps its target binding and a present
key takes the per-key merge outcome, whose object-object arm recurses
key-by-key; an array field whose dotted path is named in appendPaths and
is array-valued on both sides concatenates the new array onto the
existing one, so it never shrinks; every other array or scalar field is
replaced outright by the patch value; and a patch at a missing key merges
into the empty object. -/
theorem patch_deep_merge_spec :
    (∀ (t s : List (String × Json)) (paths : List String) (k : String),
        (s.map Prod.fst).Nodup →
        lookupKey k (_deep_merge_with_append t s paths "")
          = match lookupKey k s with
            | none => lookupKey k t
            | some sv =>
                some (_deep_merge_value sv (lookupKey k t) paths (joinSeg "" k)))
    ∧ (∀ (p : List String) (t s : List (String × Json)) (paths : List String)
          (lt2 ls2 : List Json),
        wfJson (Json.obj s) = true →
        lookupPath (Json.obj t) p = some (Json.arr lt2) →
        lookupPath (Json.obj s) p = some (Json.arr ls2) →
        fieldPathFrom "" p ∈ paths →
        lookupPath (Json.obj (_deep_merge_with_append t s paths "")) p
            = some (Json.arr (lt2 ++ ls2))
          ∧ lt2.length ≤ (lt2 ++ ls2).length)
    ∧ (∀ (t s : List (String × Json)) (paths : List String) (k : String)
          (sv : Json),
        (s.map Prod.fst).Nodup → lookupKey k s = some sv →
        (∀ sobj tobj, sv = Json.obj sobj →
          lookupKey k t ≠ some (Json.obj tobj)) →
        (∀ ls2 lt2, sv = Json.arr ls2 → lookupKey k t = some (Json.arr lt2) →
          joinSeg "" k ∉ paths) →
        lookupKey k (_deep_merge_with_append t s paths "") = some sv)
    ∧ (∀ (s : Store) (key : String) (p : List (String × Json))
          (paths : List String),
        s.mode ≠ Mode.append → s.max_entries = none →
        lookupKey key s.entries = none →
        lookupKey key (apply_patch key p paths s).entries
          = some (Json.obj (_deep_merge_with_append [] p paths ""))) := by
  refine ⟨?_, ?_, ?_, ?_⟩
  · intro t s paths k hnd
    exact lookup_deep_merge k s t paths "" hnd
  · intro p t s paths lt2 ls2 hwf ht hs hmem
    refine ⟨deep_merge_path_concat p t s paths "" lt2 ls2 hwf ht hs hmem, ?_⟩
    simp
  · intro t s paths k sv hnd hks hobj harr
    rw [lookup_deep_merge k s t paths "" hnd, hks]
    show some (_deep_merge_value sv (lookupKey k t) paths (joinSeg "" k))
      = some sv
    rw [_deep_merge_value_default sv (lookupKey k t) paths (joinSeg "" k) hobj
      harr]
  · intro s key p paths hm hmax hk
    rw [lookup_apply_patch key key p paths s hm hmax]
    rw [if_pos rfl]
    unfold patch_merged
    rw [hk]
    rfl

/-- Claim C2 witness: an append-path array concatenates (and does not
shrink) on a concrete merge. -/
theorem patch_deep_merge_spec_witness :
    lookupPath (Json.obj (_deep_merge_with_append
        [("xs", Json.arr [Json.num 1, Json.num 2])]
        [("xs", Json.arr [Json.num 3])] ["xs"] "")) ["xs"]
      = some (Json.arr ([Json.num 1, Json.num 2] ++ [Json.num 3]))
    ∧ ([Json.num 1, Json.num 2] : List Json).length
        ≤ (([Json.num 1, Json.num 2] ++ [Json.num 3]) : List Json).length :=
  patch_deep_merge_spec.2.1 ["xs"] [("xs", Json.arr [Json.num 1, Json.num 2])]
    [("xs", Json.arr [Json.num 3])] ["xs"] [Json.num 1, Json.num 2]
    [Json.num 3] (by decide) (by decide) (by decide) (by decide)

theorem eraseKey_not_mem (k : String) (l : List (String × Json))
    (h : k ∉ l.map Prod.fst) : eraseKey k l = l := by
  unfold eraseKey
  refine List.filter_eq_self.2 ?_
  intro p hp
  simp only [ne_eq, decide_eq_true_eq]
  intro hpk
  exact h (hpk ▸ List.mem_map_of_mem Prod.fst hp)

/- One enforcement step on an unsorted keyed store that just exceeded its
   bound by one: the front (oldest) OrderedDict item is evicted. -/
theorem enforce_step_unsorted (s : Store) (m : Nat)
    (hmax : s.max_entries = some m) (hsc : s.sort_config = none)
    (hlen : s.entries.length = m + 1) :
    (_enforce_max_entries s).entries = s.entries.tail := by
  unfold _enforce_max_entries
  rw [hmax]
  obtain ⟨f, hf⟩ : ∃ f, s.entries.length + s.sorted_keys.length = f + 1 :=
    ⟨m + s.sorted_keys.length, by omega⟩
  rw [hf]
  simp only [enforce_loop]
  rw [if_pos (by omega : s.entries.length > m)]
  split
  · rename_i c sk heq1 heq2
    rw [hsc] at heq1
    exact Option.noConfusion heq1
  · rw [enforce_loop_noop m f _ (by
      simp only [List.length_tail]
      omega)]

/- One enforcement step on a sorted keyed store that just exceeded its
   bound by one: the entry whose sort key is last in sort order - the
   tail of keys_sorted - is evicted. -/
theorem enforce_step_sorted (s : Store) (m : Nat) (c : SortConfig)
    (sk : SVal × String) (rest : List (SVal × String))
    (hmax : s.max_entries = some m) (hsc : s.sort_config = some c)
    (hsk : s.sorted_keys = rest ++ [sk])
    (hlen : s.entries.length = m + 1)
    (hnd : (s.entries.map Prod.fst).Nodup)
    (hmem : sk.2 ∈ s.entries.map Prod.fst)
    (hmd : s.mode ≠ Mode.append) :
    (_enforce_max_entries s).entries = eraseKey sk.2 s.entries
    ∧ (keys_sorted s).getLast? = some sk.2 := by
  constructor
  · unfold _enforce_max_entries
    rw [hmax]
    obtain ⟨f, hf⟩ : ∃ f, s.entries.length + s.sorted_keys.length = f + 1 :=
      ⟨m + rest.length + 1, by rw [hsk]; simp; omega⟩
    rw [hf]
    simp only [enforce_loop]
    rw [if_pos (by omega : s.entries.length > m)]
    split
    · rename_i c2 sk2 heq1 heq2
      have hsk2 : sk = sk2 := by
        rw [hsk, List.getLast?_concat] at heq2
        exact Option.some.inj heq2
      subst hsk2
      rw [enforce_loop_noop m f _ (by
        have hle := length_eraseKey_of_mem sk.2 s.entries hnd hmem
        show (eraseKey sk.2 s.entries).length ≤ m
        omega)]
    · rename_i hfall
      exact (hfall c sk hsc (by rw [hsk, List.getLast?_concat])).elim
  · have hne : s.sorted_keys ≠ [] := by
      rw [hsk]
      simp
    simp [keys_sorted, hmd, hsc, hne, hsk, List.getLast?_concat]

theorem length_applyOp_le (s : Store) (op : Op) (m : Nat)
    (hmax : s.max_entries = some m) (hlen : s.entries.length ≤ m) :
    (applyOp s op).entries.length ≤ m := by
  cases op with
  | upsert k v =>
    show (apply_upsert k v s).entries.length ≤ m
    unfold apply_upsert
    split
    · simpa [_notify_update] using hlen
    · simp only [_notify_update]
      split
      · rename_i cfg heq
        obtain ⟨i1, i2, i3, i4, i5, i6⟩ :=
          _insert_sorted_spec k v { s with entries := setKey k v s.entries }
        exact _enforce_le _ m (by rw [i2]; exact hmax)
      · exact _enforce_le _ m (by exact hmax)
  | patch k p paths =>
    show (apply_patch k p paths s).entries.length ≤ m
    unfold apply_patch
    split
    · simpa [_notify_update] using hlen
    · simp only [_notify_update]
      split
      · rename_i cfg heq
        obtain ⟨i1, i2, i3, i4, i5, i6⟩ :=
          _insert_sorted_spec k (patch_merged k p paths s)
            { s with entries := setKey k (patch_merged k p paths s) s.entries }
        exact _enforce_le _ m (by rw [i2]; exact hmax)
      · exact _enforce_le _ m (by exact hmax)
  | delete k =>
    show (apply_delete k s).entries.length ≤ m
    unfold apply_delete
    split
    · exact hlen
    · split
      · simp only [_notify_update]
        obtain ⟨_, _, _, re, _, _⟩ := _remove_sorted_spec k s
        show (eraseKey k (_remove_sorted k s).entries).length ≤ m
        rw [re]
        have := length_eraseKey_le k s.entries
        omega
      · exact hlen

/- Every prefix of a replay against a fresh bounded keyed store stays
   within the bound. -/
theorem replay_length_le (md : Mode) (m : Nat) (sc : Option SortConfig) :
    ∀ (ops : List Op) (n : Nat),
    (replay (ops.take n) (freshStore md (some m) sc)).entries.length ≤ m := by
  suffices h : ∀ (ops : List Op) (s : Store), s.max_entries = some m →
      s.entries.length ≤ m → ∀ n,
      (replay (ops.take n) s).entries.length ≤ m by
    intro ops n
    exact h ops _ rfl (by simp [freshStore]) n
  intro ops
  induction ops with
  | nil =>
    intro s hmax hlen n
    simpa [replay] using hlen
  | cons op rest ih =>
    intro s hmax hlen n
    cases n with
    | zero => simpa [replay] using hlen
    | succ n2 =>
      rw [show (op :: rest).take (n2 + 1) = op :: rest.take n2 from rfl]
      rw [show replay (op :: rest.take n2) s
          = replay (rest.take n2) (applyOp s op) from by simp [replay]]
      obtain ⟨c1, c2, c3⟩ := applyOp_config s op
      exact ih (applyOp s op) (by rw [c2]; exact hmax)
        (length_applyOp_le s op m hmax hlen) n2

/-- Claim C4 (amended to keyed stores): replaying any operation sequence
against a fresh bounded keyed (state/list) store keeps the stored entry
count within the bound after every prefix, and when an operation makes
the count exceed the bound by one, enforcement evicts exactly the current
tail under the active ordering: the front (oldest-inserted) OrderedDict
item when no sort configuration is attached, and the entry whose key is
last in keys_sorted order when one is.  Append-mode stores are never
enforced and can exceed the bound (see the counterexample). -/
theorem capacity_bound_eviction :
    (∀ (md : Mode) (m : Nat) (sc : Option SortConfig) (ops : List Op) (n : Nat),
        (replay (ops.take n) (freshStore md (some m) sc)).entries.length ≤ m)
    ∧ (∀ (s : Store) (m : Nat), s.max_entries = some m →
        s.sort_config = none → s.entries.length = m + 1 →
        (_enforce_max_entries s).entries = s.entries.tail)
    ∧ (∀ (s : Store) (m : Nat) (c : SortConfig) (sk : SVal × String)
          (rest : List (SVal × String)),
        s.max_entries = some m → s.sort_config = some c →
        s.sorted_keys = rest ++ [sk] → s.entries.length = m + 1 →
        (s.entries.map Prod.fst).Nodup → sk.2 ∈ s.entries.map Prod.fst →
        s.mode ≠ Mode.append →
        (_enforce_max_entries s).entries = eraseKey sk.2 s.entries
        ∧ (keys_sorted s).getLast? = some sk.2) :=
  ⟨replay_length_le, enforce_step_unsorted,
    fun s m c sk rest h1 h2 h3 h4 h5 h6 h7 =>
      enforce_step_sorted s m c sk rest h1 h2 h3 h4 h5 h6 h7⟩

/-- Claim C4 witness: a sorted two-entry store with bound 1 evicts b, the
last entry in sort order, and an unsorted one evicts its front entry. -/
theorem capacity_bound_eviction_witness :
    ((_enforce_max_entries
        { mode := Mode.list, max_entries := some 1,
          sort_config := some ⟨["x"], SortOrder.asc⟩,
          entries := [("a", Json.obj [("x", Json.num 1)]),
                      ("b", Json.obj [("x", Json.num 2)])],
          seq := [], sorted_keys := [(SVal.n 1, "a"), (SVal.n 2, "b")],
          key_to_sort_key := [("a", (SVal.n 1, "a")), ("b", (SVal.n 2, "b"))],
          updates := [] }).entries
      = eraseKey "b" [("a", Json.obj [("x", Json.num 1)]),
                      ("b", Json.obj [("x", Json.num 2)])]
      ∧ (keys_sorted
        { mode := Mode.list, max_entries := some 1,
          sort_config := some ⟨["x"], SortOrder.asc⟩,
          entries := [("a", Json.obj [("x", Json.num 1)]),
                      ("b", Json.obj [("x", Json.num 2)])],
          seq := [], sorted_keys := [(SVal.n 1, "a"), (SVal.n 2, "b")],
          key_to_sort_key := [("a", (SVal.n 1, "a")), ("b", (SVal.n 2, "b"))],
          updates := [] }).getLast? = some "b")
    ∧ (_enforce_max_entries
        { mode := Mode.list, max_entries := some 1, sort_config := none,
          entries := [("a", Json.num 1), ("b", Json.num 2)], seq := [],
          sorted_keys := [], key_to_sort_key := [], updates := [] }).entries
      = [("a", Json.num 1), ("b", Json.num 2)].tail :=
  ⟨capacity_bound_eviction.2.2
      { mode := Mode.list, max_entries := some 1,
        sort_config := some ⟨["x"], SortOrder.asc⟩,
        entries := [("a", Json.obj [("x", Json.num 1)]),
                    ("b", Json.obj [("x", Json.num 2)])],
        seq := [], sorted_keys := [(SVal.n 1, "a"), (SVal.n 2, "b")],
        key_to_sort_key := [("a", (SVal.n 1, "a")), ("b", (SVal.n 2, "b"))],
        updates := [] }
      1 ⟨["x"], SortOrder.asc⟩ (SVal.n 2, "b") [(SVal.n 1, "a")]
      rfl rfl rfl (by decide) (by decide) (by decide) (by decide),
   capacity_bound_eviction.2.1
      { mode := Mode.list, max_entries := some 1, sort_config := none,
        entries := [("a", Json.num 1), ("b", Json.num 2)], seq := [],
        sorted_keys := [], key_to_sort_key := [], updates := [] }
      1 rfl rfl (by decide)⟩

/-- Claim C4 counterexample: an append-mode store with bound 1 holds two
elements after two upserts - append mode never enforces the bound. -/
theorem append_mode_capacity_cex :
    (replay [Op.upsert "a" (Json.num 1), Op.upsert "b" (Json.num 2)]
        (freshStore Mode.append (some 1) none)).seq.length = 2 := by
  decide

/-- Claim C9: in a keyed store, get(key) for a present key is read-only
exactly when a sort configuration is attached; without one it moves the
accessed entry to the most-recently-inserted position, so a bare read
changes which entry is the primary (front) entry and which entry the
capacity enforcement would evict next: before the read the accessed front
entry itself would be evicted, after it the former second entry is. -/
theorem get_moves_entry :
    (∀ (s : Store) (k : String) (c : SortConfig), s.mode ≠ Mode.append →
        s.sort_config = some c → (Store.get (some k) s).2 = s)
    ∧ (∀ (s : Store) (k : String) (v : Json), s.mode ≠ Mode.append →
        s.sort_config = none → lookupKey k s.entries = some v →
        (Store.get (some k) s).2.entries = eraseKey k s.entries ++ [(k, v)])
    ∧ (∀ (s : Store) (k k2 : String) (v v2 : Json)
          (rest : List (String × Json)),
        s.mode ≠ Mode.append → s.sort_config = none →
        s.entries = (k, v) :: (k2, v2) :: rest →
        k ≠ k2 → k ∉ rest.map Prod.fst →
        (Store.get none s).1 = some v
        ∧ (Store.get none (Store.get (some k) s).2).1 = some v2
        ∧ (_enforce_max_entries
            { s with max_entries := some (s.entries.length - 1) }).entries
            = (k2, v2) :: rest
        ∧ (_enforce_max_entries
            { (Store.get (some k) s).2 with
                max_entries := some (s.entries.length - 1) }).entries
            = rest ++ [(k, v)]) := by
  have hpart2 : ∀ (s : Store) (k : String) (v : Json), s.mode ≠ Mode.append →
      s.sort_config = none → lookupKey k s.entries = some v →
      (Store.get (some k) s).2
        = { s with entries := move_to_end k s.entries } := by
    intro s k v hm hsc hk
    simp [Store.get, hm, hsc, containsKey, hk]
  refine ⟨?_, ?_, ?_⟩
  · intro s k c hm hsc
    simp [Store.get, hm, hsc]
  · intro s k v hm hsc hk
    rw [hpart2 s k v hm hsc hk]
    show move_to_end k s.entries = eraseKey k s.entries ++ [(k, v)]
    unfold move_to_end
    rw [hk]
  · intro s k k2 v v2 rest hm hsc hent hkk2 hkrest
    have hkv : lookupKey k s.entries = some v := by
      rw [hent]
      simp [lookupKey]
    have herase : eraseKey k s.entries = (k2, v2) :: rest := by
      rw [hent, eraseKey_cons_self,
        eraseKey_cons_ne k k2 v2 rest (fun hh => hkk2 hh.symm),
        eraseKey_not_mem k rest hkrest]
    have hmove : move_to_end k s.entries = (k2, v2) :: (rest ++ [(k, v)]) := by
      unfold move_to_end
      rw [hkv, herase]
      rfl
    have hlen : s.entries.length = rest.length + 2 := by
      rw [hent]
      simp
    have hbranch := hpart2 s k v hm hsc hkv
    refine ⟨?_, ?_, ?_, ?_⟩
    · simp [Store.get, hm, hsc, hent]
    · rw [hbranch]
      simp [Store.get, hm, hsc, hmove]
    · rw [enforce_step_unsorted _ (s.entries.length - 1) rfl (by exact hsc)
        (by
          show s.entries.length = s.entries.length - 1 + 1
          omega)]
      rw [hent]
      rfl
    · rw [hbranch]
      rw [enforce_step_unsorted _ (s.entries.length - 1) rfl (by exact hsc)
        (by
          show (move_to_end k s.entries).length = s.entries.length - 1 + 1
          rw [hmove]
          simp
          omega)]
      show (move_to_end k s.entries).tail = rest ++ [(k, v)]
      rw [hmove]
      rfl

/-- Claim C9 witness: a concrete three-entry unsorted store where reading
key a moves it to the back, changes the primary entry from a to b, and
redirects the next eviction from a to b; plus a sorted store where the
read leaves the store untouched. -/
theorem get_moves_entry_witness :
    (let s0 : Store :=
      { mode := Mode.list, max_entries := none, sort_config := none,
        entries := [("a", Json.num 1), ("b", Json.num 2), ("c", Json.num 3)],
        seq := [], sorted_keys := [], key_to_sort_key := [], updates := [] }
     (Store.get none s0).1 = some (Json.num 1)
     ∧ (Store.get none (Store.get (some "a") s0).2).1 = some (Json.num 2)
     ∧ (_enforce_max_entries
          { s0 with max_entries := some (s0.entries.length - 1) }).entries
        = [("b", Json.num 2), ("c", Json.num 3)]
     ∧ (_enforce_max_entries
          { (Store.get (some "a") s0).2 with
              max_entries := some (s0.entries.length - 1) }).entries
        = [("c", Json.num 3)] ++ [("a", Json.num 1)])
    ∧ (let s1 : Store :=
        { mode := Mode.list, max_entries := none,
          sort_config := some ⟨["x"], SortOrder.asc⟩,
          entries := [("a", Json.num 1)], seq := [],
          sorted_keys := [(SVal.absent, "a")],
          key_to_sort_key := [("a", (SVal.absent, "a"))], updates := [] }
       (Store.get (some "a") s1).2 = s1) :=
  ⟨get_moves_entry.2.2
      { mode := Mode.list, max_entries := none, sort_config := none,
        entries := [("a", Json.num 1), ("b", Json.num 2), ("c", Json.num 3)],
        seq := [], sorted_keys := [], key_to_sort_key := [], updates := [] }
      "a" "b" (Json.num 1) (Json.num 2) [("c", Json.num 3)]
      (by decide) rfl rfl (by decide) (by decide),
   get_moves_entry.1
      { mode := Mode.list, max_entries := none,
        sort_config := some ⟨["x"], SortOrder.asc⟩,
        entries := [("a", Json.num 1)], seq := [],
        sorted_keys := [(SVal.absent, "a")],
        key_to_sort_key := [("a", (SVal.absent, "a"))], updates := [] }
      "a" ⟨["x"], SortOrder.asc⟩ (by decide) rfl⟩

end HyperStack
